import Mathlib

/-!
Verification development for the reTeX lexical front end.

The definitions below are a shallow embedding of the Rust sources:
 - crates/retex-lex/src/category_code.rs  (category codes, default table)
 - crates/retex-lex/src/lexer.rs          (character decoder and lexer state machine)
 - crates/retex-lex/src/command_identifier.rs (interning table)
 - crates/retex-lex/src/preprocessor.rs   (include-stack shell)
 - crates/retex-base/src/source_manager.rs (file registry, global offsets)

Bytes are modelled as natural numbers (inputs are u8, so values below 256);
arena pointers are modelled as arena indices, and u32 arithmetic of the
source manager is modelled with explicit reduction modulo 2^32.
-/

namespace ReTeX

/-- Category codes, mirroring the 16-valued enum CategoryCode in category_code.rs. -/
inductive CatCode where
  | escape
  | beginGroup
  | endGroup
  | mathShift
  | alignmentTab
  | endOfLine
  | param
  | superscript
  | subscript
  | ignored
  | space
  | letter
  | other
  | active
  | comment
  | invalid
deriving DecidableEq

/-- Default category-code assignment built by CategoryCodeTable::new in
category_code.rs: the plain-TeX table, any unassigned byte is Other. -/
def defaultCategory (b : Nat) : CatCode :=
  if b = 92 then .escape
  else if b = 123 then .beginGroup
  else if b = 125 then .endGroup
  else if b = 36 then .mathShift
  else if b = 38 then .alignmentTab
  else if b = 13 ∨ b = 10 then .endOfLine
  else if b = 35 then .param
  else if b = 94 then .superscript
  else if b = 95 then .subscript
  else if b = 0 ∨ b = 127 then .ignored
  else if b = 32 ∨ b = 9 then .space
  else if (97 ≤ b ∧ b ≤ 122) ∨ (65 ≤ b ∧ b ≤ 90) then .letter
  else if b = 126 then .active
  else if b = 37 then .comment
  else .other

/-- Mirrors CategoryCodeTable::set: point update of the table. -/
def setCat (t : Nat → CatCode) (b : Nat) (c : CatCode) : Nat → CatCode :=
  fun x => if x = b then c else t x

/-- Mirrors u8::is_ascii_hexdigit used in Lexer::get_char_and_size. -/
def isAsciiHexDigit (b : Nat) : Bool :=
  (48 ≤ b && b ≤ 57) || (97 ≤ b && b ≤ 102) || (65 ≤ b && b ≤ 70)

/-- Mirrors hex_char_to_value in lexer.rs (the default 0 corresponds to the
unreachable branch there, guarded by is_ascii_hexdigit checks). -/
def hexCharToValue (b : Nat) : Nat :=
  if 48 ≤ b ∧ b ≤ 57 then b - 48
  else if 97 ≤ b ∧ b ≤ 102 then b - 97 + 10
  else if 65 ≤ b ∧ b ≤ 70 then b - 65 + 10
  else 0

/-- Byte of the input at an index (inputs are byte lists; out of range reads
never happen on the paths below because they are guarded by length tests,
matching the slice indexing in the Rust code). -/
def byteAt (input : List Nat) (i : Nat) : Nat := input.getD i 0

/-- Mirrors Lexer::get_char_and_size in lexer.rs: the logical character
decoder.  Returns the decoded byte, the number of input bytes it occupies and
whether a transformation (caret notation or CRLF folding) was applied. -/
def getCharAndSize (input : List Nat) (pos : Nat) : Option (Nat × Nat × Bool) :=
  if pos < input.length then
    let ch := byteAt input pos
    if ch = 94 ∧ pos + 2 < input.length ∧ byteAt input (pos + 1) = 94 then
      let third := byteAt input (pos + 2)
      if pos + 3 < input.length ∧ isAsciiHexDigit third = true ∧
          isAsciiHexDigit (byteAt input (pos + 3)) = true then
        some (16 * hexCharToValue third + hexCharToValue (byteAt input (pos + 3)), 4, true)
      else
        some (if 64 ≤ third then third - 64 else third + 64, 3, true)
    else if ch = 13 ∧ pos + 1 < input.length ∧ byteAt input (pos + 1) = 10 then
      some (13, 2, true)
    else
      some (ch, 1, false)
  else
    none

/-- The command identifier table of command_identifier.rs, modelled as the
arena contents in allocation order; an identifier handle is its arena index
(pointer equality in Rust corresponds to index equality here). -/
def lookupBytes : List (List Nat) → List Nat → Option Nat
  | [], _ => none
  | x :: xs, b => if x = b then some 0 else (lookupBytes xs b).map (· + 1)

/-- Mirrors CommandIdentifierTable::get_or_insert: return the handle of an
already interned byte sequence, or allocate it at the end of the arena. -/
def getOrInsert (tbl : List (List Nat)) (b : List Nat) : Nat × List (List Nat) :=
  match lookupBytes tbl b with
  | some i => (i, tbl)
  | none => (tbl.length, tbl ++ [b])

theorem getD_append_self (tbl : List (List Nat)) (b : List Nat) :
    (tbl ++ [b]).getD tbl.length [] = b := by
  induction tbl with
  | nil => simp
  | cons x xs ih => simp [ih]

theorem lookupBytes_getD {tbl : List (List Nat)} {b : List Nat} {i : Nat}
    (h : lookupBytes tbl b = some i) : tbl.getD i [] = b ∧ i < tbl.length := by
  induction tbl generalizing i with
  | nil => simp [lookupBytes] at h
  | cons x xs ih =>
    by_cases hx : x = b
    · simp [lookupBytes, hx] at h
      subst h
      simp [hx]
    · simp [lookupBytes, hx] at h
      obtain ⟨j, hj, hji⟩ := h
      obtain ⟨h1, h2⟩ := ih hj
      subst hji
      constructor
      · simpa using h1
      · simpa using h2

theorem lookupBytes_append_of_none {tbl : List (List Nat)} {b : List Nat}
    (h : lookupBytes tbl b = none) :
    lookupBytes (tbl ++ [b]) b = some tbl.length := by
  induction tbl with
  | nil => simp [lookupBytes]
  | cons x xs ih =>
    by_cases hx : x = b
    · simp [lookupBytes, hx] at h
    · simp [lookupBytes, hx] at h ⊢
      simp [ih h]

theorem getOrInsert_getD (tbl : List (List Nat)) (b : List Nat) :
    (getOrInsert tbl b).2.getD (getOrInsert tbl b).1 [] = b := by
  unfold getOrInsert
  cases h : lookupBytes tbl b with
  | some i => simpa using (lookupBytes_getD h).1
  | none =>
    simp [getD_append_self tbl b]

theorem getOrInsert_idx_lt (tbl : List (List Nat)) (b : List Nat) :
    (getOrInsert tbl b).1 < (getOrInsert tbl b).2.length := by
  unfold getOrInsert
  cases h : lookupBytes tbl b with
  | some i => simpa using (lookupBytes_getD h).2
  | none => simp

theorem getOrInsert_self (tbl : List (List Nat)) (b : List Nat) :
    getOrInsert (getOrInsert tbl b).2 b = getOrInsert tbl b := by
  unfold getOrInsert
  cases h : lookupBytes tbl b with
  | some i => simp [getOrInsert, h]
  | none =>
    simp only
    rw [lookupBytes_append_of_none h]

theorem getD_append_left {l l2 : List (List Nat)} {i : Nat} (h : i < l.length) :
    (l ++ l2).getD i [] = l.getD i [] := by
  induction l generalizing i with
  | nil => simp at h
  | cons x xs ih =>
    cases i with
    | zero => simp
    | succ j =>
      simp only [List.cons_append, List.getD_cons_succ]
      exact ih (by simpa using h)

/-- Token kinds, mirroring TokenKind in token.rs together with the
InvalidChar kind that lexer.rs emits in its Invalid branch. -/
inductive TokKind where
  | eof
  | unknown
  | controlWord
  | controlSymbol
  | beginGroup
  | endGroup
  | mathShift
  | alignmentTab
  | param
  | superscript
  | subscript
  | space
  | letter
  | other
  | activeChar
  | paragraph
  | invalidChar
deriving DecidableEq

/-- Token record as filled in by Lexer::lex: kind, START_OF_LINE flag,
location, byte length, the raw decoded bytes installed by set_raw_bytes and
the command identifier handle installed by set_command_identifier (none
when the lexer never calls it for the token). -/
structure Tok where
  kind : TokKind
  startOfLine : Bool
  loc : Nat
  len : Nat
  rawBytes : List Nat
  cmdId : Option Nat
deriving DecidableEq

def mkTok (k : TokKind) (sol : Bool) (loc len : Nat) (raw : List Nat)
    (cid : Option Nat) : Tok :=
  ⟨k, sol, loc, len, raw, cid⟩

/-- Lexer state, mirroring the fields of struct Lexer in lexer.rs, together
with the ambient command identifier table (owned by the preprocessor in the
Rust code) and four instrumentation counters that tally the bytes the lexer
discards without accounting them to any token: bytes of Ignored characters,
bytes of skipped Space characters, bytes discarded by finish_line for a
comment, and bytes discarded by finish_line after a remapped end-of-line
character. -/
structure LexState where
  input : List Nat
  cat : Nat → CatCode
  pos : Nat
  atStartOfLine : Bool
  skipSpaces : Bool
  idTable : List (List Nat)
  dIgnored : Nat
  dSpace : Nat
  dComment : Nat
  dEol : Nat

def sumCounters (s : LexState) : Nat := s.dIgnored + s.dSpace + s.dComment + s.dEol

/-- Slice input[a..b] of the byte list, as used by form_token_from_input and
the zero-copy control-word path. -/
def sliceB (l : List Nat) (a b : Nat) : List Nat := (l.drop a).take (b - a)

/-- The skipping-blanks loop at the top of Lexer::lex (executed when
skip_spaces is set): consume characters while their category is Space or
Ignored.  Returns the new position, the bytes consumed from Space characters
and the bytes consumed from Ignored characters. -/
def skipSpaceIgnoredAux (input : List Nat) (cat : Nat → CatCode) : Nat → Nat → Nat × Nat × Nat
  | 0, pos => (pos, 0, 0)
  | fuel + 1, pos =>
    match getCharAndSize input pos with
    | some (ch, sz, _) =>
      if cat ch = CatCode.space then
        let r := skipSpaceIgnoredAux input cat fuel (pos + sz)
        (r.1, r.2.1 + sz, r.2.2)
      else if cat ch = CatCode.ignored then
        let r := skipSpaceIgnoredAux input cat fuel (pos + sz)
        (r.1, r.2.1, r.2.2 + sz)
      else (pos, 0, 0)
    | none => (pos, 0, 0)

/-- The unconditional Ignored-stripping loop of Lexer::lex.  Returns the new
position and the bytes consumed. -/
def skipIgnoredAux (input : List Nat) (cat : Nat → CatCode) : Nat → Nat → Nat × Nat
  | 0, pos => (pos, 0)
  | fuel + 1, pos =>
    match getCharAndSize input pos with
    | some (ch, sz, _) =>
      if cat ch = CatCode.ignored then
        let r := skipIgnoredAux input cat fuel (pos + sz)
        (r.1, r.2 + sz)
      else (pos, 0)
    | none => (pos, 0)

/-- Mirrors Lexer::finish_line: advance over raw bytes until a literal CR or
LF has been consumed, treating CRLF as a unit.  Returns the new position. -/
def finishLineAux (input : List Nat) : Nat → Nat → Nat
  | 0, pos => pos
  | fuel + 1, pos =>
    if pos < input.length then
      let ch := byteAt input pos
      if ch = 13 then
        if pos + 1 < input.length ∧ byteAt input (pos + 1) = 10 then pos + 2 else pos + 1
      else if ch = 10 then pos + 1
      else finishLineAux input fuel (pos + 1)
    else pos

/-- The space-run loop inside the Space branch of Lexer::lex: consume
characters while their category is Space. -/
def spaceRunAux (input : List Nat) (cat : Nat → CatCode) : Nat → Nat → Nat
  | 0, pos => pos
  | fuel + 1, pos =>
    match getCharAndSize input pos with
    | some (ch, sz, _) =>
      if cat ch = CatCode.space then spaceRunAux input cat fuel (pos + sz)
      else pos
    | none => pos

/-- The owned-bytes letter loop of Lexer::lex_control_word_continue: push the
decoded byte of every further Letter character and consume it. -/
def cwAccLoop (input : List Nat) (cat : Nat → CatCode) : Nat → Nat → List Nat → Nat × List Nat
  | 0, pos, acc => (pos, acc)
  | fuel + 1, pos, acc =>
    match getCharAndSize input pos with
    | some (ch, sz, _) =>
      if cat ch = CatCode.letter then cwAccLoop input cat fuel (pos + sz) (acc ++ [ch])
      else (pos, acc)
    | none => (pos, acc)

/-- The zero-copy letter loop of Lexer::lex_control_word_continue: scan
Letter characters; on the first transformed one, switch to an owned buffer
seeded with the raw input scanned so far plus the decoded byte. -/
def cwSliceLoop (input : List Nat) (cat : Nat → CatCode) : Nat → Nat → Nat → Nat × Option (List Nat)
  | 0, _, pos => (pos, none)
  | fuel + 1, start, pos =>
    match getCharAndSize input pos with
    | some (ch, sz, tr) =>
      if cat ch = CatCode.letter then
        if tr then
          let r := cwAccLoop input cat fuel (pos + sz) (sliceB input start pos ++ [ch])
          (r.1, some r.2)
        else
          cwSliceLoop input cat fuel start (pos + sz)
      else (pos, none)
    | none => (pos, none)

/-- Outcome of one iteration of the main loop of Lexer::lex: a token is
produced, or the loop restarts (Comment, and the discarded space-run case),
or the unreachable Ignored dispatch arm is hit (a panic in the source). -/
inductive StepOut where
  | emit : Tok → LexState → StepOut
  | again : LexState → Bool → StepOut
  | stuck : StepOut

/-- Steps 1 and 2 of the main loop of Lexer::lex: when skip_spaces is set,
strip Space and Ignored characters, then unconditionally strip Ignored
characters; commit the cursor, clear skip_spaces, and clear
at_start_of_line (the flag transfer to the token is handled by the caller).
The two stripped byte tallies go to the dSpace and dIgnored counters. -/
def afterStrip (s : LexState) : LexState :=
  let len := s.input.length
  let r1 := if s.skipSpaces then skipSpaceIgnoredAux s.input s.cat (len + 1) s.pos
            else (s.pos, 0, 0)
  let r2 := skipIgnoredAux s.input s.cat (len + 1) r1.1
  { s with pos := r2.1, skipSpaces := false, atStartOfLine := false,
           dSpace := s.dSpace + r1.2.1, dIgnored := s.dIgnored + r1.2.2 + r2.2 }

/-- The digit lookahead of Lexer::lex_parameter_token: after the parameter
character has been consumed up to position pP, consume one more logical
character iff it is an ASCII digit (is_ascii_digit accepts 0..9). -/
def paramEnd (input : List Nat) (pP : Nat) : Nat :=
  match getCharAndSize input pP with
  | some (d, dsz, _) => if 48 ≤ d ∧ d ≤ 57 then pP + dsz else pP
  | none => pP

/-- The decision at the end of the space run in the Space branch of
Lexer::lex: a Space token is emitted iff the character after the run exists
and is not of category EndOfLine. -/
def spaceEmitFlag (input : List Nat) (cat : Nat → CatCode) (pR : Nat) : Bool :=
  match getCharAndSize input pR with
  | some (c2, _, _) => decide (¬ (cat c2 = CatCode.endOfLine))
  | none => false

theorem paramEnd_none {input : List Nat} {pP : Nat}
    (h : getCharAndSize input pP = none) : paramEnd input pP = pP := by
  simp [paramEnd, h]

theorem paramEnd_some {input : List Nat} {pP d dsz : Nat} {tr : Bool}
    (h : getCharAndSize input pP = some (d, dsz, tr)) :
    paramEnd input pP = if 48 ≤ d ∧ d ≤ 57 then pP + dsz else pP := by
  simp [paramEnd, h]

theorem spaceEmitFlag_none {input : List Nat} {cat : Nat → CatCode} {pR : Nat}
    (h : getCharAndSize input pR = none) : spaceEmitFlag input cat pR = false := by
  simp [spaceEmitFlag, h]

theorem spaceEmitFlag_some {input : List Nat} {cat : Nat → CatCode} {pR c2 sz2 : Nat}
    {tr2 : Bool} (h : getCharAndSize input pR = some (c2, sz2, tr2)) :
    spaceEmitFlag input cat pR = decide (¬ (cat c2 = CatCode.endOfLine)) := by
  simp [spaceEmitFlag, h]

/-- The category dispatch of the main loop of Lexer::lex, translated branch
by branch from lexer.rs (including lex_control_sequence,
lex_control_word_continue and lex_parameter_token; the preprocessor's
lookup_command_identifier is the identifier table's get_or_insert).  The
sol1 argument is the accumulated START_OF_LINE flag of the out-parameter
token. -/
def dispatch (s1 : LexState) (sol1 : Bool) : StepOut :=
  let len := s1.input.length
  let p2 := s1.pos
  match getCharAndSize s1.input p2 with
  | none => .emit (mkTok .eof sol1 p2 0 (sliceB s1.input p2 p2) none) s1
  | some (ch, sz, _tr) =>
    match s1.cat ch with
    | .escape =>
      let pE := p2 + sz
      match getCharAndSize s1.input pE with
      | none =>
        .emit (mkTok .controlSymbol sol1 p2 (pE - p2) (sliceB s1.input p2 pE) none)
              { s1 with pos := pE }
      | some (ch2, sz2, tr2) =>
        if s1.cat ch2 = CatCode.letter then
          let r :=
            if tr2 then
              let a := cwAccLoop s1.input s1.cat (len + 1) (pE + sz2) [ch2]
              (a.1, some a.2)
            else cwSliceLoop s1.input s1.cat (len + 1) pE (pE + sz2)
          let name := r.2.getD (sliceB s1.input pE r.1)
          let t := getOrInsert s1.idTable name
          .emit (mkTok .controlWord sol1 p2 (r.1 - p2) [] (some t.1))
                { s1 with pos := r.1, idTable := t.2, skipSpaces := true }
        else
          let pS := pE + sz2
          .emit (mkTok .controlSymbol sol1 p2 (pS - p2) (sliceB s1.input p2 pS) none)
                { s1 with pos := pS, skipSpaces := decide (s1.cat ch2 = CatCode.space) }
    | .beginGroup => .emit (mkTok .beginGroup sol1 p2 sz [ch] none) { s1 with pos := p2 + sz }
    | .endGroup => .emit (mkTok .endGroup sol1 p2 sz [ch] none) { s1 with pos := p2 + sz }
    | .mathShift => .emit (mkTok .mathShift sol1 p2 sz [ch] none) { s1 with pos := p2 + sz }
    | .alignmentTab => .emit (mkTok .alignmentTab sol1 p2 sz [ch] none) { s1 with pos := p2 + sz }
    | .endOfLine =>
      let k := if sol1 then TokKind.paragraph else TokKind.space
      if ch = 13 ∨ ch = 10 then
        .emit (mkTok k sol1 p2 sz [ch] none)
              { s1 with pos := p2 + sz, atStartOfLine := true, skipSpaces := true }
      else
        let p3 := finishLineAux s1.input (len + 1) (p2 + sz)
        .emit (mkTok k sol1 p2 sz [ch] none)
              { s1 with pos := p3, dEol := s1.dEol + (p3 - (p2 + sz)),
                        atStartOfLine := decide (p3 < len), skipSpaces := decide (p3 < len) }
    | .param =>
      let pEnd := paramEnd s1.input (p2 + sz)
      .emit (mkTok .param sol1 p2 (pEnd - p2) (sliceB s1.input p2 pEnd) none)
            { s1 with pos := pEnd }
    | .superscript => .emit (mkTok .superscript sol1 p2 sz [ch] none) { s1 with pos := p2 + sz }
    | .subscript => .emit (mkTok .subscript sol1 p2 sz [ch] none) { s1 with pos := p2 + sz }
    | .ignored => .stuck
    | .invalid => .emit (mkTok .invalidChar sol1 p2 sz [ch] none) { s1 with pos := p2 + sz }
    | .space =>
      let pR := spaceRunAux s1.input s1.cat (len + 1) (p2 + sz)
      let emitSpace := spaceEmitFlag s1.input s1.cat pR
      if emitSpace then
        .emit (mkTok .space sol1 p2 sz [ch] none)
              { s1 with pos := pR, dSpace := s1.dSpace + (pR - (p2 + sz)) }
      else
        .again { s1 with pos := pR, dSpace := s1.dSpace + (pR - p2) } sol1
    | .letter => .emit (mkTok .letter sol1 p2 sz [ch] none) { s1 with pos := p2 + sz }
    | .other => .emit (mkTok .other sol1 p2 sz [ch] none) { s1 with pos := p2 + sz }
    | .active => .emit (mkTok .activeChar sol1 p2 sz [ch] none) { s1 with pos := p2 + sz }
    | .comment =>
      let p3 := finishLineAux s1.input (len + 1) p2
      let s2 : LexState :=
        { s1 with pos := p3, dComment := s1.dComment + (p3 - p2),
                  atStartOfLine := decide (p3 < len), skipSpaces := decide (p3 < len) }
      .again s2 sol1

/-- One iteration of the main loop of Lexer::lex: the stripping steps
followed by the category dispatch.  The sol argument accumulates the
START_OF_LINE flag of the out-parameter token across loop iterations;
step 3 of the loop ors in at_start_of_line and clears it. -/
def lexStep1 (s : LexState) (sol : Bool) : StepOut :=
  dispatch (afterStrip s) (sol || s.atStartOfLine)

/-- The main loop of Lexer::lex, iterating lexStep1 until a token is
produced; fuel bounds the number of loop restarts. -/
def lexLoop : Nat → LexState → Bool → Option (Tok × LexState)
  | 0, _, _ => none
  | fuel + 1, s, sol =>
    match lexStep1 s sol with
    | .emit t s2 => some (t, s2)
    | .again s2 sol2 => lexLoop fuel s2 sol2
    | .stuck => none

def dummyTok : Tok := mkTok .unknown false 0 0 [] none

/-- Lexer::lex with the fuel instantiated: enough restarts are always
available (proved below), so the default branch is never taken. -/
def lex (s : LexState) : Tok × LexState :=
  (lexLoop (s.input.length + 2) s false).getD (dummyTok, s)

/-- Mirrors Lexer::from_bytes: cursor at 0, at start of line, skipping
blanks, with the given category table and an empty identifier arena. -/
def mkLexer (input : List Nat) (cat : Nat → CatCode) : LexState :=
  ⟨input, cat, 0, true, true, [], 0, 0, 0, 0⟩

def initLexer (input : List Nat) : LexState := mkLexer input defaultCategory

/-- Repeatedly call lex, collecting tokens up to and including the Eof
token. -/
def lexAll : Nat → LexState → List Tok × LexState
  | 0, s => ([], s)
  | fuel + 1, s =>
    let r := lex s
    if r.1.kind = .eof then ([r.1], r.2)
    else
      let rest := lexAll fuel r.2
      (r.1 :: rest.1, rest.2)

def tokenStreamWith (input : List Nat) (cat : Nat → CatCode) : List Tok × LexState :=
  lexAll (input.length + 2) (mkLexer input cat)

def tokenStream (input : List Nat) : List Tok × LexState :=
  tokenStreamWith input defaultCategory

def sumLen (ts : List Tok) : Nat := (ts.map Tok.len).sum

/-- C2: the logical character decoder get_char_and_size decodes a caret pair
followed by two existing ASCII hex digits as the hex-pair byte consuming 4
bytes (the hex form winning whenever both forms would match); otherwise a
caret pair with an existing third byte X decodes to X-64 (X at least 64) or
X+64 (X below 64) consuming 3 bytes; and with fewer than 3 bytes remaining
at the position no caret decoding occurs and the caret byte is returned raw
as 1 untransformed byte. -/
theorem getCharAndSize_caret_spec (input : List Nat) (pos : Nat) :
    (byteAt input pos = 94 ∧ byteAt input (pos + 1) = 94 ∧ pos + 3 < input.length ∧
        isAsciiHexDigit (byteAt input (pos + 2)) = true ∧
        isAsciiHexDigit (byteAt input (pos + 3)) = true →
      getCharAndSize input pos =
        some (16 * hexCharToValue (byteAt input (pos + 2)) +
                hexCharToValue (byteAt input (pos + 3)), 4, true)) ∧
    (byteAt input pos = 94 ∧ byteAt input (pos + 1) = 94 ∧ pos + 2 < input.length ∧
        ¬ (pos + 3 < input.length ∧ isAsciiHexDigit (byteAt input (pos + 2)) = true ∧
            isAsciiHexDigit (byteAt input (pos + 3)) = true) →
      getCharAndSize input pos =
        some ((if 64 ≤ byteAt input (pos + 2) then byteAt input (pos + 2) - 64
               else byteAt input (pos + 2) + 64), 3, true)) ∧
    (byteAt input pos = 94 ∧ pos < input.length ∧ ¬ pos + 2 < input.length →
      getCharAndSize input pos = some (94, 1, false)) := by
  refine ⟨?_, ?_, ?_⟩
  · rintro ⟨h0, h1, h3, hx2, hx3⟩
    have hlt : pos < input.length := by omega
    have h2 : pos + 2 < input.length := by omega
    simp [getCharAndSize, hlt, h0, h1, h2, h3, hx2, hx3]
  · rintro ⟨h0, h1, h2, hno⟩
    have hlt : pos < input.length := by omega
    simp only [getCharAndSize, if_pos hlt]
    rw [if_pos ⟨h0, h2, h1⟩, if_neg hno]
  · rintro ⟨h0, hlt, h2⟩
    have hne : ¬ (byteAt input pos = 94 ∧ pos + 2 < input.length ∧
        byteAt input (pos + 1) = 94) := by
      rintro ⟨-, hc, -⟩; exact h2 hc
    have hne2 : ¬ (byteAt input pos = 13 ∧ pos + 1 < input.length ∧
        byteAt input (pos + 1) = 10) := by
      rintro ⟨hc, -, -⟩; omega
    simp only [getCharAndSize, if_pos hlt]
    rw [if_neg hne, if_neg hne2, h0]

/-- Witness for C2: the three decoder cases at concrete inputs, obtained by
applying the theorem: hex form on the bytes of caret-caret-4-1 gives byte 65
consuming 4; single form on caret-caret-a-bang gives byte 33 consuming 3;
and a caret with fewer than 3 bytes remaining is returned raw. -/
theorem getCharAndSize_caret_spec_witness :
    getCharAndSize [94, 94, 52, 49] 0 = some (65, 4, true) ∧
    getCharAndSize [94, 94, 97, 33] 0 = some (33, 3, true) ∧
    getCharAndSize [94, 94] 0 = some (94, 1, false) := by
  refine ⟨?_, ?_, ?_⟩
  · have h := (getCharAndSize_caret_spec [94, 94, 52, 49] 0).1 (by decide)
    simpa using h
  · have h := (getCharAndSize_caret_spec [94, 94, 97, 33] 0).2.1 (by decide)
    simpa using h
  · exact (getCharAndSize_caret_spec [94, 94] 0).2.2 (by decide)

/-- C3: interning the same byte sequence twice in a command identifier table
returns the same handle and leaves the table unchanged; interning two
distinct byte sequences returns distinct handles; and the bytes stored
behind the handle returned for b are exactly b (the as_bytes round-trip). -/
theorem getOrInsert_intern_spec (tbl : List (List Nat)) (b b1 b2 : List Nat) :
    (getOrInsert (getOrInsert tbl b).2 b).1 = (getOrInsert tbl b).1 ∧
    (getOrInsert (getOrInsert tbl b).2 b).2 = (getOrInsert tbl b).2 ∧
    (b1 ≠ b2 →
      (getOrInsert tbl b1).1 ≠ (getOrInsert (getOrInsert tbl b1).2 b2).1) ∧
    (getOrInsert tbl b).2.getD (getOrInsert tbl b).1 [] = b := by
  refine ⟨?_, ?_, ?_, getOrInsert_getD tbl b⟩
  · rw [getOrInsert_self]
  · rw [getOrInsert_self]
  · intro hne heq
    have h1 : (getOrInsert tbl b1).2.getD (getOrInsert tbl b1).1 [] = b1 :=
      getOrInsert_getD tbl b1
    have hlt : (getOrInsert tbl b1).1 < (getOrInsert tbl b1).2.length :=
      getOrInsert_idx_lt tbl b1
    have h2 : (getOrInsert (getOrInsert tbl b1).2 b2).2.getD
        (getOrInsert (getOrInsert tbl b1).2 b2).1 [] = b2 :=
      getOrInsert_getD (getOrInsert tbl b1).2 b2
    have hpres : ∀ (t : List (List Nat)) (c : List Nat) (i : Nat), i < t.length →
        (getOrInsert t c).2.getD i [] = t.getD i [] := by
      intro t c i hi
      unfold getOrInsert
      cases hl : lookupBytes t c with
      | some j => rfl
      | none => simpa using getD_append_left hi
    have hsame : (getOrInsert (getOrInsert tbl b1).2 b2).2.getD
        (getOrInsert tbl b1).1 [] = b1 := by
      rw [hpres _ _ _ hlt]
      exact h1
    rw [← heq] at h2
    rw [hsame] at h2
    exact hne h2

/-- Witness for C3: interning in an empty table, with the distinctness
hypothesis discharged on two concrete unequal byte sequences. -/
theorem getOrInsert_intern_spec_witness :
    (getOrInsert (getOrInsert ([] : List (List Nat)) [104]).2 [104]).1 =
        (getOrInsert ([] : List (List Nat)) [104]).1 ∧
    (getOrInsert ([] : List (List Nat)) [104, 105]).1 ≠
        (getOrInsert (getOrInsert ([] : List (List Nat)) [104, 105]).2 [106]).1 ∧
    (getOrInsert ([] : List (List Nat)) [104]).2.getD
        (getOrInsert ([] : List (List Nat)) [104]).1 [] = [104] :=
  ⟨(getOrInsert_intern_spec [] [104] [104, 105] [106]).1,
   (getOrInsert_intern_spec [] [104] [104, 105] [106]).2.2.1 (by decide),
   (getOrInsert_intern_spec [] [104] [104, 105] [106]).2.2.2⟩

/-- C1 counterexample: on the two-byte input "a " (a letter then a space,
default category table) the lexer emits only a Letter token of length 1 and
then Eof, discarding the trailing space: the sum of token lengths plus the
bytes stripped as Ignored characters and as comments is 1, not the input
length 2 (and the gap is neither a comment nor an Invalid byte: the default
categories of the two bytes are Letter and Space). -/
theorem lex_cover_cex :
    (tokenStream [97, 32]).1 =
      [mkTok .letter true 0 1 [97] none, mkTok .eof false 2 0 [] none] ∧
    sumLen (tokenStream [97, 32]).1 + (tokenStream [97, 32]).2.dIgnored +
      (tokenStream [97, 32]).2.dComment ≠ ([97, 32] : List Nat).length ∧
    defaultCategory 97 = CatCode.letter ∧ defaultCategory 32 = CatCode.space := by
  refine ⟨by decide, by decide, by decide, by decide⟩

/-- C5: on input "a|b" with the byte of the vertical bar assigned category
Invalid, the lexer does not silently skip the Invalid character: the second
call to lex emits an InvalidChar token of length 1 at location 1 (the repo
test test_invalid_characters and the spec instead expect the Letter b token
at location 2 to come second). -/
theorem lex_invalid_emits_token :
    (tokenStreamWith [97, 124, 98] (setCat defaultCategory 124 CatCode.invalid)).1 =
      [mkTok .letter true 0 1 [97] none,
       mkTok .invalidChar false 1 1 [124] none,
       mkTok .letter false 2 1 [98] none,
       mkTok .eof false 3 0 [] none] := by
  decide

/-- C6: on input "#0" the lexer consumes the digit 0 after the parameter
character: the Parameter token has length 2 and covers both bytes, although
the claim (and the 1..9 range documented for TokenData::ParameterIndex)
says the byte 0 must not be consumed. -/
theorem lex_parameter_digit_zero :
    (tokenStream [35, 48]).1 =
      [mkTok .param true 0 2 [35, 48] none, mkTok .eof false 2 0 [] none] := by
  decide

/-- C7: on input "@" with the at-sign assigned category Active, the lexer
consumes one character and emits an ActiveChar token, but it never consults
the command identifier table: the token carries no command identifier and
the ambient table stays empty (the repo test test_active_character instead
expects an interned identifier for the at-sign byte). -/
theorem lex_active_no_intern :
    (tokenStreamWith [64] (setCat defaultCategory 64 CatCode.active)).1 =
      [mkTok .activeChar true 0 1 [64] none, mkTok .eof false 1 0 [] none] ∧
    (tokenStreamWith [64] (setCat defaultCategory 64 CatCode.active)).2.idTable = [] := by
  exact ⟨by decide, by decide⟩

/-! Facts about the decoder and the lexer loops, leading to the coverage
invariant of the token stream. -/

theorem getCharAndSize_bound {input : List Nat} {pos ch sz : Nat} {tr : Bool}
    (h : getCharAndSize input pos = some (ch, sz, tr)) :
    1 ≤ sz ∧ pos + sz ≤ input.length := by
  unfold getCharAndSize at h
  by_cases hlt : pos < input.length
  · rw [if_pos hlt] at h
    by_cases hc : byteAt input pos = 94 ∧ pos + 2 < input.length ∧ byteAt input (pos + 1) = 94
    · rw [if_pos hc] at h
      by_cases hh : pos + 3 < input.length ∧ isAsciiHexDigit (byteAt input (pos + 2)) = true ∧
          isAsciiHexDigit (byteAt input (pos + 3)) = true
      · rw [if_pos hh] at h
        simp only [Option.some.injEq, Prod.mk.injEq] at h
        omega
      · rw [if_neg hh] at h
        simp only [Option.some.injEq, Prod.mk.injEq] at h
        omega
    · rw [if_neg hc] at h
      by_cases hcr : byteAt input pos = 13 ∧ pos + 1 < input.length ∧ byteAt input (pos + 1) = 10
      · rw [if_pos hcr] at h
        simp only [Option.some.injEq, Prod.mk.injEq] at h
        omega
      · rw [if_neg hcr] at h
        simp only [Option.some.injEq, Prod.mk.injEq] at h
        omega
  · rw [if_neg hlt] at h
    exact absurd h (by simp)

theorem getCharAndSize_none {input : List Nat} {pos : Nat} :
    getCharAndSize input pos = none ↔ input.length ≤ pos := by
  unfold getCharAndSize
  by_cases hlt : pos < input.length
  · rw [if_pos hlt]
    constructor
    · intro h
      by_cases hc : byteAt input pos = 94 ∧ pos + 2 < input.length ∧ byteAt input (pos + 1) = 94
      · rw [if_pos hc] at h
        by_cases hh : pos + 3 < input.length ∧ isAsciiHexDigit (byteAt input (pos + 2)) = true ∧
            isAsciiHexDigit (byteAt input (pos + 3)) = true
        · rw [if_pos hh] at h; exact absurd h (by simp)
        · rw [if_neg hh] at h; exact absurd h (by simp)
      · rw [if_neg hc] at h
        by_cases hcr : byteAt input pos = 13 ∧ pos + 1 < input.length ∧ byteAt input (pos + 1) = 10
        · rw [if_pos hcr] at h; exact absurd h (by simp)
        · rw [if_neg hcr] at h; exact absurd h (by simp)
    · intro h; omega
  · rw [if_neg hlt]
    constructor
    · intro _; omega
    · intro _; rfl

theorem paramEnd_spec (input : List Nat) (pP : Nat) :
    pP ≤ paramEnd input pP ∧ (pP ≤ input.length → paramEnd input pP ≤ input.length) := by
  cases hg2 : getCharAndSize input pP with
  | none => rw [paramEnd_none hg2]; exact ⟨le_refl _, fun hp => hp⟩
  | some c2 =>
    obtain ⟨d, dsz, trd⟩ := c2
    have hb2 := getCharAndSize_bound hg2
    rw [paramEnd_some hg2]
    by_cases hd : 48 ≤ d ∧ d ≤ 57
    · rw [if_pos hd]
      exact ⟨by omega, fun _ => by omega⟩
    · rw [if_neg hd]
      exact ⟨le_refl _, fun hp => hp⟩

theorem skipSpaceIgnoredAux_spec (input : List Nat) (cat : Nat → CatCode) :
    ∀ (fuel pos : Nat),
      (skipSpaceIgnoredAux input cat fuel pos).1 =
        pos + (skipSpaceIgnoredAux input cat fuel pos).2.1 +
          (skipSpaceIgnoredAux input cat fuel pos).2.2 ∧
      (pos ≤ input.length → (skipSpaceIgnoredAux input cat fuel pos).1 ≤ input.length) := by
  intro fuel
  induction fuel with
  | zero => intro pos; simp [skipSpaceIgnoredAux]
  | succ f ih =>
    intro pos
    cases hg : getCharAndSize input pos with
    | none => simp [skipSpaceIgnoredAux, hg]
    | some t =>
      obtain ⟨ch, sz, tr⟩ := t
      have hb := getCharAndSize_bound hg
      by_cases hsp : cat ch = CatCode.space
      · have h := ih (pos + sz)
        simp only [skipSpaceIgnoredAux, hg, if_pos hsp]
        exact ⟨by omega, fun hp => h.2 (by omega)⟩
      · by_cases hig : cat ch = CatCode.ignored
        · have h := ih (pos + sz)
          simp only [skipSpaceIgnoredAux, hg, if_neg hsp, if_pos hig]
          exact ⟨by omega, fun hp => h.2 (by omega)⟩
        · simp [skipSpaceIgnoredAux, hg, if_neg hsp, if_neg hig]

theorem skipSpaceIgnoredAux_stop (input : List Nat) (cat : Nat → CatCode) :
    ∀ (fuel pos : Nat), input.length - pos < fuel →
      ∀ ch sz tr, getCharAndSize input (skipSpaceIgnoredAux input cat fuel pos).1 =
          some (ch, sz, tr) →
        cat ch ≠ CatCode.space ∧ cat ch ≠ CatCode.ignored := by
  intro fuel
  induction fuel with
  | zero => intro pos h; omega
  | succ f ih =>
    intro pos hf ch sz tr
    cases hg : getCharAndSize input pos with
    | none =>
      simp only [skipSpaceIgnoredAux, hg]
      intro hcontra
      exact absurd hcontra (by simp)
    | some t =>
      obtain ⟨ch0, sz0, tr0⟩ := t
      have hb := getCharAndSize_bound hg
      have hlt : pos < input.length := by omega
      by_cases hsp : cat ch0 = CatCode.space
      · simp only [skipSpaceIgnoredAux, hg, if_pos hsp]
        exact ih (pos + sz0) (by omega) ch sz tr
      · by_cases hig : cat ch0 = CatCode.ignored
        · simp only [skipSpaceIgnoredAux, hg, if_neg hsp, if_pos hig]
          exact ih (pos + sz0) (by omega) ch sz tr
        · simp only [skipSpaceIgnoredAux, hg, if_neg hsp, if_neg hig]
          intro hsome
          simp only [Option.some.injEq, Prod.mk.injEq] at hsome
          obtain ⟨h1, -, -⟩ := hsome
          rw [← h1]
          exact ⟨hsp, hig⟩

theorem skipIgnoredAux_spec (input : List Nat) (cat : Nat → CatCode) :
    ∀ (fuel pos : Nat),
      (skipIgnoredAux input cat fuel pos).1 = pos + (skipIgnoredAux input cat fuel pos).2 ∧
      (pos ≤ input.length → (skipIgnoredAux input cat fuel pos).1 ≤ input.length) := by
  intro fuel
  induction fuel with
  | zero => intro pos; simp [skipIgnoredAux]
  | succ f ih =>
    intro pos
    cases hg : getCharAndSize input pos with
    | none => simp [skipIgnoredAux, hg]
    | some t =>
      obtain ⟨ch, sz, tr⟩ := t
      have hb := getCharAndSize_bound hg
      by_cases hig : cat ch = CatCode.ignored
      · have h := ih (pos + sz)
        simp only [skipIgnoredAux, hg, if_pos hig]
        exact ⟨by omega, fun hp => h.2 (by omega)⟩
      · simp [skipIgnoredAux, hg, if_neg hig]

theorem skipIgnoredAux_stop (input : List Nat) (cat : Nat → CatCode) :
    ∀ (fuel pos : Nat), input.length - pos < fuel →
      ∀ ch sz tr, getCharAndSize input (skipIgnoredAux input cat fuel pos).1 =
          some (ch, sz, tr) →
        cat ch ≠ CatCode.ignored := by
  intro fuel
  induction fuel with
  | zero => intro pos h; omega
  | succ f ih =>
    intro pos hf ch sz tr
    cases hg : getCharAndSize input pos with
    | none =>
      simp only [skipIgnoredAux, hg]
      intro hcontra
      exact absurd hcontra (by simp)
    | some t =>
      obtain ⟨ch0, sz0, tr0⟩ := t
      have hb := getCharAndSize_bound hg
      have hlt : pos < input.length := by omega
      by_cases hig : cat ch0 = CatCode.ignored
      · simp only [skipIgnoredAux, hg, if_pos hig]
        exact ih (pos + sz0) (by omega) ch sz tr
      · simp only [skipIgnoredAux, hg, if_neg hig]
        intro hsome
        simp only [Option.some.injEq, Prod.mk.injEq] at hsome
        obtain ⟨h1, -, -⟩ := hsome
        rw [← h1]
        exact hig

theorem skipIgnoredAux_noop {input : List Nat} {cat : Nat → CatCode} {fuel pos ch sz : Nat}
    {tr : Bool} (hg : getCharAndSize input pos = some (ch, sz, tr))
    (hig : cat ch ≠ CatCode.ignored) :
    skipIgnoredAux input cat (fuel + 1) pos = (pos, 0) := by
  simp only [skipIgnoredAux, hg]
  rw [if_neg hig]

theorem finishLineAux_mono (input : List Nat) :
    ∀ (fuel pos : Nat),
      pos ≤ finishLineAux input fuel pos ∧
      (pos ≤ input.length → finishLineAux input fuel pos ≤ input.length) := by
  intro fuel
  induction fuel with
  | zero => intro pos; simp [finishLineAux]
  | succ f ih =>
    intro pos
    simp only [finishLineAux]
    by_cases hlt : pos < input.length
    · rw [if_pos hlt]
      by_cases h13 : byteAt input pos = 13
      · rw [if_pos h13]
        by_cases h10 : pos + 1 < input.length ∧ byteAt input (pos + 1) = 10
        · rw [if_pos h10]
          constructor
          · omega
          · intro _; omega
        · rw [if_neg h10]
          constructor
          · omega
          · intro _; omega
      · rw [if_neg h13]
        by_cases h10 : byteAt input pos = 10
        · rw [if_pos h10]
          constructor
          · omega
          · intro _; omega
        · rw [if_neg h10]
          have h := ih (pos + 1)
          constructor
          · omega
          · intro _; exact h.2 (by omega)
    · rw [if_neg hlt]
      simp

theorem finishLineAux_advance (input : List Nat) (fuel pos : Nat)
    (hlt : pos < input.length) :
    pos + 1 ≤ finishLineAux input (fuel + 1) pos := by
  simp only [finishLineAux, if_pos hlt]
  by_cases h13 : byteAt input pos = 13
  · rw [if_pos h13]
    by_cases h10 : pos + 1 < input.length ∧ byteAt input (pos + 1) = 10
    · rw [if_pos h10]; omega
    · rw [if_neg h10]
  · rw [if_neg h13]
    by_cases h10 : byteAt input pos = 10
    · rw [if_pos h10]
    · rw [if_neg h10]
      have h := (finishLineAux_mono input fuel (pos + 1)).1
      omega

theorem spaceRunAux_spec (input : List Nat) (cat : Nat → CatCode) :
    ∀ (fuel pos : Nat),
      pos ≤ spaceRunAux input cat fuel pos ∧
      (pos ≤ input.length → spaceRunAux input cat fuel pos ≤ input.length) := by
  intro fuel
  induction fuel with
  | zero => intro pos; simp [spaceRunAux]
  | succ f ih =>
    intro pos
    cases hg : getCharAndSize input pos with
    | none => simp [spaceRunAux, hg]
    | some t =>
      obtain ⟨ch, sz, tr⟩ := t
      have hb := getCharAndSize_bound hg
      by_cases hsp : cat ch = CatCode.space
      · have h := ih (pos + sz)
        simp only [spaceRunAux, hg, if_pos hsp]
        exact ⟨by omega, fun hp => h.2 (by omega)⟩
      · simp [spaceRunAux, hg, if_neg hsp]

theorem cwAccLoop_spec (input : List Nat) (cat : Nat → CatCode) :
    ∀ (fuel pos : Nat) (acc : List Nat),
      pos ≤ (cwAccLoop input cat fuel pos acc).1 ∧
      (pos ≤ input.length → (cwAccLoop input cat fuel pos acc).1 ≤ input.length) := by
  intro fuel
  induction fuel with
  | zero => intro pos acc; simp [cwAccLoop]
  | succ f ih =>
    intro pos acc
    cases hg : getCharAndSize input pos with
    | none => simp [cwAccLoop, hg]
    | some t =>
      obtain ⟨ch, sz, tr⟩ := t
      have hb := getCharAndSize_bound hg
      by_cases hl : cat ch = CatCode.letter
      · have h := ih (pos + sz) (acc ++ [ch])
        simp only [cwAccLoop, hg, if_pos hl]
        exact ⟨by omega, fun hp => h.2 (by omega)⟩
      · simp [cwAccLoop, hg, if_neg hl]

theorem cwSliceLoop_spec (input : List Nat) (cat : Nat → CatCode) :
    ∀ (fuel start pos : Nat),
      pos ≤ (cwSliceLoop input cat fuel start pos).1 ∧
      (pos ≤ input.length → (cwSliceLoop input cat fuel start pos).1 ≤ input.length) := by
  intro fuel
  induction fuel with
  | zero => intro start pos; simp [cwSliceLoop]
  | succ f ih =>
    intro start pos
    cases hg : getCharAndSize input pos with
    | none => simp [cwSliceLoop, hg]
    | some t =>
      obtain ⟨ch, sz, tr⟩ := t
      have hb := getCharAndSize_bound hg
      by_cases hl : cat ch = CatCode.letter
      · cases tr with
        | true =>
          have h := cwAccLoop_spec input cat f (pos + sz) (sliceB input start pos ++ [ch])
          simp only [cwSliceLoop, hg, if_pos hl, eq_self_iff_true, if_true]
          exact ⟨by omega, fun hp => h.2 (by omega)⟩
        | false =>
          have h := ih start (pos + sz)
          simp only [cwSliceLoop, hg, if_pos hl, Bool.false_eq_true, if_false]
          exact ⟨by omega, fun hp => h.2 (by omega)⟩
      · simp [cwSliceLoop, hg, if_neg hl]

/-- Per-call facts about a token-producing iteration: the input and table
are untouched, the token starts exactly at the committed cursor, the token
range ends at or before the new cursor, the cursor stays within the input,
the cursor advance is exactly the token length plus newly tallied discarded
bytes, non-Eof tokens consume at least one byte, Eof is empty and at or
beyond the end of input, and the token carries the accumulated
START_OF_LINE flag. -/
def EmitFacts (s1 : LexState) (sol1 : Bool) (t : Tok) (s2 : LexState) : Prop :=
  s2.input = s1.input ∧ s2.cat = s1.cat ∧ t.loc = s1.pos ∧ t.loc + t.len ≤ s2.pos ∧
  (s1.pos ≤ s1.input.length → s2.pos ≤ s1.input.length) ∧
  s2.pos + sumCounters s1 = s1.pos + t.len + sumCounters s2 ∧
  (t.kind ≠ TokKind.eof → 1 ≤ t.len) ∧
  (t.kind = TokKind.eof → t.len = 0 ∧ s1.input.length ≤ s2.pos ∧ t.loc = s2.pos) ∧
  t.startOfLine = sol1

/-- Per-call facts about a restarting iteration: the cursor strictly
advances while staying within the input, and the advance is exactly the
newly tallied discarded bytes. -/
def AgainFacts (s1 : LexState) (sol1 : Bool) (s2 : LexState) (sol2 : Bool) : Prop :=
  s2.input = s1.input ∧ s2.cat = s1.cat ∧
  s1.pos < s2.pos ∧ s1.pos < s1.input.length ∧
  (s1.pos ≤ s1.input.length → s2.pos ≤ s1.input.length) ∧
  s2.pos + sumCounters s1 = s1.pos + sumCounters s2 ∧ sol2 = sol1

theorem emitFacts_char {s1 : LexState} {sol1 : Bool} {k : TokKind} {ch sz : Nat} {tr : Bool}
    (hg : getCharAndSize s1.input s1.pos = some (ch, sz, tr)) (hk : k ≠ TokKind.eof) :
    EmitFacts s1 sol1 (mkTok k sol1 s1.pos sz [ch] none) { s1 with pos := s1.pos + sz } := by
  have hb := getCharAndSize_bound hg
  unfold EmitFacts
  refine ⟨rfl, rfl, rfl, ?_, ?_, ?_, ?_, ?_, rfl⟩
  · simp only [mkTok, sumCounters]; omega
  · intro hp; simp only [mkTok, sumCounters]; omega
  · simp only [mkTok, sumCounters]
  · intro _; simp only [mkTok, sumCounters]; omega
  · intro he; exact absurd he hk

theorem dispatch_emit_spec {s1 : LexState} {sol1 : Bool} {t : Tok} {s2 : LexState}
    (h : dispatch s1 sol1 = .emit t s2) : EmitFacts s1 sol1 t s2 := by
  simp only [dispatch] at h
  cases hg : getCharAndSize s1.input s1.pos with
  | none =>
    rw [hg] at h
    simp only at h
    injection h with h1 h2
    subst h1; subst h2
    have hlen := getCharAndSize_none.mp hg
    unfold EmitFacts
    refine ⟨rfl, rfl, rfl, ?_, fun hp => hp, ?_, fun hk => absurd rfl hk,
      fun _ => ⟨rfl, ?_, rfl⟩, rfl⟩
    · simp only [mkTok]; omega
    · simp only [mkTok, sumCounters]; omega
    · omega
  | some c =>
    obtain ⟨ch, sz, tr⟩ := c
    rw [hg] at h
    simp only at h
    have hb := getCharAndSize_bound hg
    cases hcat : s1.cat ch with
    | escape =>
      rw [hcat] at h
      simp only at h
      cases hg2 : getCharAndSize s1.input (s1.pos + sz) with
      | none =>
        rw [hg2] at h
        simp only at h
        injection h with h1 h2
        subst h1; subst h2
        unfold EmitFacts
        refine ⟨rfl, rfl, rfl, ?_, ?_, ?_, ?_, ?_, rfl⟩
        · simp only [mkTok]; omega
        · intro hp; simp only [mkTok]; omega
        · simp only [mkTok, sumCounters]; omega
        · intro _; simp only [mkTok]; omega
        · intro he; exact absurd he (by simp [mkTok])
      | some c2 =>
        obtain ⟨ch2, sz2, tr2⟩ := c2
        rw [hg2] at h
        simp only at h
        have hb2 := getCharAndSize_bound hg2
        by_cases hl : s1.cat ch2 = CatCode.letter
        · rw [if_pos hl] at h
          have hr : s1.pos + sz + sz2 ≤
              (if tr2 = true then
                ((cwAccLoop s1.input s1.cat (s1.input.length + 1) (s1.pos + sz + sz2) [ch2]).1,
                 some (cwAccLoop s1.input s1.cat (s1.input.length + 1) (s1.pos + sz + sz2) [ch2]).2)
               else cwSliceLoop s1.input s1.cat (s1.input.length + 1) (s1.pos + sz) (s1.pos + sz + sz2)).1 ∧
              (s1.pos + sz + sz2 ≤ s1.input.length →
               (if tr2 = true then
                 ((cwAccLoop s1.input s1.cat (s1.input.length + 1) (s1.pos + sz + sz2) [ch2]).1,
                  some (cwAccLoop s1.input s1.cat (s1.input.length + 1) (s1.pos + sz + sz2) [ch2]).2)
                else cwSliceLoop s1.input s1.cat (s1.input.length + 1) (s1.pos + sz) (s1.pos + sz + sz2)).1 ≤ s1.input.length) := by
            cases tr2 with
            | true =>
              have := cwAccLoop_spec s1.input s1.cat (s1.input.length + 1) (s1.pos + sz + sz2) [ch2]
              simp only [if_true, eq_self_iff_true]
              exact ⟨this.1, this.2⟩
            | false =>
              have := cwSliceLoop_spec s1.input s1.cat (s1.input.length + 1) (s1.pos + sz) (s1.pos + sz + sz2)
              simp only [Bool.false_eq_true, if_false]
              exact ⟨this.1, this.2⟩
          injection h with h1 h2
          subst h1; subst h2
          unfold EmitFacts
          refine ⟨rfl, rfl, rfl, ?_, ?_, ?_, ?_, ?_, rfl⟩
          · simp only [mkTok]; omega
          · intro hp; simp only [mkTok]; omega
          · simp only [mkTok, sumCounters]; omega
          · intro _; simp only [mkTok]; omega
          · intro he; exact absurd he (by simp [mkTok])
        · rw [if_neg hl] at h
          injection h with h1 h2
          subst h1; subst h2
          unfold EmitFacts
          refine ⟨rfl, rfl, rfl, ?_, ?_, ?_, ?_, ?_, rfl⟩
          · simp only [mkTok]; omega
          · intro hp; simp only [mkTok]; omega
          · simp only [mkTok, sumCounters]; omega
          · intro _; simp only [mkTok]; omega
          · intro he; exact absurd he (by simp [mkTok])
    | beginGroup =>
      rw [hcat] at h
      simp only at h
      injection h with h1 h2
      subst h1; subst h2
      exact emitFacts_char hg (by simp)
    | endGroup =>
      rw [hcat] at h
      simp only at h
      injection h with h1 h2
      subst h1; subst h2
      exact emitFacts_char hg (by simp)
    | mathShift =>
      rw [hcat] at h
      simp only at h
      injection h with h1 h2
      subst h1; subst h2
      exact emitFacts_char hg (by simp)
    | alignmentTab =>
      rw [hcat] at h
      simp only at h
      injection h with h1 h2
      subst h1; subst h2
      exact emitFacts_char hg (by simp)
    | endOfLine =>
      rw [hcat] at h
      simp only at h
      by_cases hcr : ch = 13 ∨ ch = 10
      · rw [if_pos hcr] at h
        injection h with h1 h2
        subst h1; subst h2
        unfold EmitFacts
        refine ⟨rfl, rfl, rfl, ?_, ?_, ?_, ?_, ?_, rfl⟩
        · simp only [mkTok]; omega
        · intro hp; simp only [mkTok]; omega
        · simp only [mkTok, sumCounters]
        · intro _; simp only [mkTok]; omega
        · intro he
          by_cases hsol : sol1 = true <;> simp [mkTok, hsol] at he
      · rw [if_neg hcr] at h
        have hfl := finishLineAux_mono s1.input (s1.input.length + 1) (s1.pos + sz)
        injection h with h1 h2
        subst h1; subst h2
        unfold EmitFacts
        refine ⟨rfl, rfl, rfl, ?_, ?_, ?_, ?_, ?_, rfl⟩
        · simp only [mkTok]; omega
        · intro hp
          have := hfl.2 (by omega)
          simp only [mkTok]; omega
        · simp only [mkTok, sumCounters]; omega
        · intro _; simp only [mkTok]; omega
        · intro he
          by_cases hsol : sol1 = true <;> simp [mkTok, hsol] at he
    | param =>
      rw [hcat] at h
      simp only at h
      have hEnd := paramEnd_spec s1.input (s1.pos + sz)
      injection h with h1 h2
      subst h1; subst h2
      unfold EmitFacts
      refine ⟨rfl, rfl, rfl, ?_, ?_, ?_, ?_, ?_, rfl⟩
      · simp only [mkTok]; omega
      · intro hp; simp only [mkTok]; omega
      · simp only [mkTok, sumCounters]; omega
      · intro _; simp only [mkTok]; omega
      · intro he; exact absurd he (by simp [mkTok])
    | superscript =>
      rw [hcat] at h
      simp only at h
      injection h with h1 h2
      subst h1; subst h2
      exact emitFacts_char hg (by simp)
    | subscript =>
      rw [hcat] at h
      simp only at h
      injection h with h1 h2
      subst h1; subst h2
      exact emitFacts_char hg (by simp)
    | ignored =>
      rw [hcat] at h
      exact StepOut.noConfusion h
    | invalid =>
      rw [hcat] at h
      simp only at h
      injection h with h1 h2
      subst h1; subst h2
      exact emitFacts_char hg (by simp)
    | space =>
      rw [hcat] at h
      simp only at h
      have hsr := spaceRunAux_spec s1.input s1.cat (s1.input.length + 1) (s1.pos + sz)
      by_cases he : spaceEmitFlag s1.input s1.cat
          (spaceRunAux s1.input s1.cat (s1.input.length + 1) (s1.pos + sz)) = true
      · rw [if_pos he] at h
        injection h with h1 h2
        subst h1; subst h2
        unfold EmitFacts
        refine ⟨rfl, rfl, rfl, ?_, ?_, ?_, ?_, ?_, rfl⟩
        · simp only [mkTok]; omega
        · intro hp
          have := hsr.2 (by omega)
          simp only [mkTok]; omega
        · simp only [mkTok, sumCounters]; omega
        · intro _; simp only [mkTok]; omega
        · intro hek; exact absurd hek (by simp [mkTok])
      · rw [if_neg he] at h
        exact StepOut.noConfusion h
    | letter =>
      rw [hcat] at h
      simp only at h
      injection h with h1 h2
      subst h1; subst h2
      exact emitFacts_char hg (by simp)
    | other =>
      rw [hcat] at h
      simp only at h
      injection h with h1 h2
      subst h1; subst h2
      exact emitFacts_char hg (by simp)
    | active =>
      rw [hcat] at h
      simp only at h
      injection h with h1 h2
      subst h1; subst h2
      exact emitFacts_char hg (by simp)
    | comment =>
      rw [hcat] at h
      exact StepOut.noConfusion h

theorem dispatch_again_spec {s1 : LexState} {sol1 : Bool} {s2 : LexState} {sol2 : Bool}
    (h : dispatch s1 sol1 = .again s2 sol2) : AgainFacts s1 sol1 s2 sol2 := by
  simp only [dispatch] at h
  cases hg : getCharAndSize s1.input s1.pos with
  | none =>
    rw [hg] at h
    exact StepOut.noConfusion h
  | some c =>
    obtain ⟨ch, sz, tr⟩ := c
    rw [hg] at h
    simp only at h
    have hb := getCharAndSize_bound hg
    cases hcat : s1.cat ch with
    | escape =>
      rw [hcat] at h
      simp only at h
      cases hg2 : getCharAndSize s1.input (s1.pos + sz) with
      | none =>
        rw [hg2] at h
        exact StepOut.noConfusion h
      | some c2 =>
        obtain ⟨ch2, sz2, tr2⟩ := c2
        rw [hg2] at h
        simp only at h
        by_cases hl : s1.cat ch2 = CatCode.letter
        · rw [if_pos hl] at h
          exact StepOut.noConfusion h
        · rw [if_neg hl] at h
          exact StepOut.noConfusion h
    | beginGroup => rw [hcat] at h; exact StepOut.noConfusion h
    | endGroup => rw [hcat] at h; exact StepOut.noConfusion h
    | mathShift => rw [hcat] at h; exact StepOut.noConfusion h
    | alignmentTab => rw [hcat] at h; exact StepOut.noConfusion h
    | endOfLine =>
      rw [hcat] at h
      simp only at h
      by_cases hcr : ch = 13 ∨ ch = 10
      · rw [if_pos hcr] at h
        exact StepOut.noConfusion h
      · rw [if_neg hcr] at h
        exact StepOut.noConfusion h
    | param => rw [hcat] at h; exact StepOut.noConfusion h
    | superscript => rw [hcat] at h; exact StepOut.noConfusion h
    | subscript => rw [hcat] at h; exact StepOut.noConfusion h
    | ignored => rw [hcat] at h; exact StepOut.noConfusion h
    | invalid => rw [hcat] at h; exact StepOut.noConfusion h
    | space =>
      rw [hcat] at h
      simp only at h
      have hsr := spaceRunAux_spec s1.input s1.cat (s1.input.length + 1) (s1.pos + sz)
      by_cases he : spaceEmitFlag s1.input s1.cat
          (spaceRunAux s1.input s1.cat (s1.input.length + 1) (s1.pos + sz)) = true
      · rw [if_pos he] at h
        exact StepOut.noConfusion h
      · rw [if_neg he] at h
        injection h with h1 h2
        subst h1; subst h2
        unfold AgainFacts
        refine ⟨rfl, rfl, ?_, by omega, ?_, ?_, rfl⟩
        · simp only []
          omega
        · intro hp
          have := hsr.2 (by omega)
          simp only []
          omega
        · simp only [sumCounters]
          omega
    | letter => rw [hcat] at h; exact StepOut.noConfusion h
    | other => rw [hcat] at h; exact StepOut.noConfusion h
    | active => rw [hcat] at h; exact StepOut.noConfusion h
    | comment =>
      rw [hcat] at h
      simp only at h
      have hfl := finishLineAux_mono s1.input (s1.input.length + 1) s1.pos
      have hadv := finishLineAux_advance s1.input s1.input.length s1.pos (by omega)
      injection h with h1 h2
      subst h1; subst h2
      unfold AgainFacts
      refine ⟨rfl, rfl, ?_, by omega, ?_, ?_, rfl⟩
      · simp only []
        omega
      · intro hp
        have := hfl.2 hp
        simp only []
        omega
      · simp only [sumCounters]
        omega

theorem dispatch_stuck_spec {s1 : LexState} {sol1 : Bool}
    (h : dispatch s1 sol1 = .stuck) :
    ∃ ch sz tr, getCharAndSize s1.input s1.pos = some (ch, sz, tr) ∧
      s1.cat ch = CatCode.ignored := by
  simp only [dispatch] at h
  cases hg : getCharAndSize s1.input s1.pos with
  | none =>
    rw [hg] at h
    exact StepOut.noConfusion h
  | some c =>
    obtain ⟨ch, sz, tr⟩ := c
    rw [hg] at h
    simp only at h
    cases hcat : s1.cat ch with
    | escape =>
      rw [hcat] at h
      simp only at h
      cases hg2 : getCharAndSize s1.input (s1.pos + sz) with
      | none =>
        rw [hg2] at h
        exact StepOut.noConfusion h
      | some c2 =>
        obtain ⟨ch2, sz2, tr2⟩ := c2
        rw [hg2] at h
        simp only at h
        by_cases hl : s1.cat ch2 = CatCode.letter
        · rw [if_pos hl] at h
          exact StepOut.noConfusion h
        · rw [if_neg hl] at h
          exact StepOut.noConfusion h
    | beginGroup => rw [hcat] at h; exact StepOut.noConfusion h
    | endGroup => rw [hcat] at h; exact StepOut.noConfusion h
    | mathShift => rw [hcat] at h; exact StepOut.noConfusion h
    | alignmentTab => rw [hcat] at h; exact StepOut.noConfusion h
    | endOfLine =>
      rw [hcat] at h
      simp only at h
      by_cases hcr : ch = 13 ∨ ch = 10
      · rw [if_pos hcr] at h
        exact StepOut.noConfusion h
      · rw [if_neg hcr] at h
        exact StepOut.noConfusion h
    | param => rw [hcat] at h; exact StepOut.noConfusion h
    | superscript => rw [hcat] at h; exact StepOut.noConfusion h
    | subscript => rw [hcat] at h; exact StepOut.noConfusion h
    | ignored => exact ⟨ch, sz, tr, rfl, hcat⟩
    | invalid => rw [hcat] at h; exact StepOut.noConfusion h
    | space =>
      rw [hcat] at h
      simp only at h
      by_cases he : spaceEmitFlag s1.input s1.cat
          (spaceRunAux s1.input s1.cat (s1.input.length + 1) (s1.pos + sz)) = true
      · rw [if_pos he] at h
        exact StepOut.noConfusion h
      · rw [if_neg he] at h
        exact StepOut.noConfusion h
    | letter => rw [hcat] at h; exact StepOut.noConfusion h
    | other => rw [hcat] at h; exact StepOut.noConfusion h
    | active => rw [hcat] at h; exact StepOut.noConfusion h
    | comment => rw [hcat] at h; exact StepOut.noConfusion h

theorem afterStrip_spec (s : LexState) :
    (afterStrip s).input = s.input ∧ (afterStrip s).cat = s.cat ∧
    (afterStrip s).idTable = s.idTable ∧
    s.pos ≤ (afterStrip s).pos ∧
    (afterStrip s).pos + sumCounters s = s.pos + sumCounters (afterStrip s) ∧
    (s.pos ≤ s.input.length → (afterStrip s).pos ≤ s.input.length) := by
  cases hss : s.skipSpaces with
  | true =>
    have hA := skipSpaceIgnoredAux_spec s.input s.cat (s.input.length + 1) s.pos
    have hB := skipIgnoredAux_spec s.input s.cat (s.input.length + 1)
        (skipSpaceIgnoredAux s.input s.cat (s.input.length + 1) s.pos).1
    refine ⟨rfl, rfl, rfl, ?_, ?_, ?_⟩
    · simp only [afterStrip, hss, eq_self_iff_true, if_true]
      omega
    · simp only [afterStrip, hss, eq_self_iff_true, if_true, sumCounters]
      omega
    · intro hp
      simp only [afterStrip, hss, eq_self_iff_true, if_true]
      exact hB.2 (hA.2 hp)
  | false =>
    have hB := skipIgnoredAux_spec s.input s.cat (s.input.length + 1) s.pos
    refine ⟨rfl, rfl, rfl, ?_, ?_, ?_⟩
    · simp only [afterStrip, hss, Bool.false_eq_true, if_false]
      omega
    · simp only [afterStrip, hss, Bool.false_eq_true, if_false, sumCounters]
      omega
    · intro hp
      simp only [afterStrip, hss, Bool.false_eq_true, if_false]
      exact hB.2 hp

theorem afterStrip_not_ignored (s : LexState) :
    ∀ ch sz tr, getCharAndSize s.input (afterStrip s).pos = some (ch, sz, tr) →
      s.cat ch ≠ CatCode.ignored := by
  intro ch sz tr hg
  cases hss : s.skipSpaces with
  | true =>
    rw [show (afterStrip s).pos = (skipIgnoredAux s.input s.cat (s.input.length + 1)
        (skipSpaceIgnoredAux s.input s.cat (s.input.length + 1) s.pos).1).1 from by
      simp [afterStrip, hss]] at hg
    exact skipIgnoredAux_stop s.input s.cat (s.input.length + 1) _ (by omega) ch sz tr hg
  | false =>
    rw [show (afterStrip s).pos = (skipIgnoredAux s.input s.cat
        (s.input.length + 1) s.pos).1 from by simp [afterStrip, hss]] at hg
    exact skipIgnoredAux_stop s.input s.cat (s.input.length + 1) _ (by omega) ch sz tr hg

theorem lexStep1_emit_facts {s : LexState} {sol : Bool} {t : Tok} {s2 : LexState}
    (h : lexStep1 s sol = .emit t s2) :
    s2.input = s.input ∧ s2.cat = s.cat ∧
    s.pos ≤ t.loc ∧ t.loc + t.len ≤ s2.pos ∧
    (s.pos ≤ s.input.length → s2.pos ≤ s.input.length) ∧
    s2.pos + sumCounters s = s.pos + t.len + sumCounters s2 ∧
    (t.kind ≠ TokKind.eof → 1 ≤ t.len) ∧
    (t.kind = TokKind.eof → t.len = 0 ∧ s.input.length ≤ s2.pos ∧ t.loc = s2.pos) ∧
    t.startOfLine = (sol || s.atStartOfLine) := by
  unfold lexStep1 at h
  have hd := dispatch_emit_spec h
  obtain ⟨hai, hac, -, hapos, haeq, habound⟩ := afterStrip_spec s
  unfold EmitFacts at hd
  obtain ⟨hi, hc, hloc, hle, hbound, heq, hne, heof, hsol⟩ := hd
  rw [hai] at hi hbound heof
  rw [hac] at hc
  refine ⟨hi, hc, by omega, hle, ?_, by omega, hne, ?_, hsol⟩
  · intro hp
    exact hbound (habound hp)
  · intro hk
    obtain ⟨hl0, hlen, hploc⟩ := heof hk
    exact ⟨hl0, hlen, hploc⟩

theorem lexStep1_again_facts {s : LexState} {sol : Bool} {s2 : LexState} {sol2 : Bool}
    (h : lexStep1 s sol = .again s2 sol2) :
    s2.input = s.input ∧ s2.cat = s.cat ∧
    s.pos < s2.pos ∧ s.pos < s.input.length ∧
    (s.pos ≤ s.input.length → s2.pos ≤ s.input.length) ∧
    s2.pos + sumCounters s = s.pos + sumCounters s2 ∧
    sol2 = (sol || s.atStartOfLine) := by
  unfold lexStep1 at h
  have hd := dispatch_again_spec h
  obtain ⟨hai, hac, -, hapos, haeq, habound⟩ := afterStrip_spec s
  unfold AgainFacts at hd
  obtain ⟨hi, hc, hlt, hlen, hbound, heq, hsol⟩ := hd
  rw [hai] at hi hbound hlen
  rw [hac] at hc
  refine ⟨hi, hc, by omega, by omega, ?_, by omega, hsol⟩
  · intro hp
    exact hbound (habound hp)

theorem lexStep1_not_stuck (s : LexState) (sol : Bool) : lexStep1 s sol ≠ .stuck := by
  intro h
  unfold lexStep1 at h
  obtain ⟨ch, sz, tr, hg, hig⟩ := dispatch_stuck_spec h
  have hai := (afterStrip_spec s).1
  have hac := (afterStrip_spec s).2.1
  rw [hai] at hg
  rw [hac] at hig
  exact afterStrip_not_ignored s ch sz tr hg hig

theorem lexLoop_facts :
    ∀ (fuel : Nat) (s : LexState) (sol : Bool) (t : Tok) (s2 : LexState),
    lexLoop fuel s sol = some (t, s2) →
    s2.input = s.input ∧ s2.cat = s.cat ∧
    s.pos ≤ t.loc ∧ t.loc + t.len ≤ s2.pos ∧
    (s.pos ≤ s.input.length → s2.pos ≤ s.input.length) ∧
    s2.pos + sumCounters s = s.pos + t.len + sumCounters s2 ∧
    (t.kind ≠ TokKind.eof → 1 ≤ t.len) ∧
    (t.kind = TokKind.eof → t.len = 0 ∧ s.input.length ≤ s2.pos ∧ t.loc = s2.pos) := by
  intro fuel
  induction fuel with
  | zero => intro s sol t s2 h; simp [lexLoop] at h
  | succ f ih =>
    intro s sol t s2 h
    cases hstep : lexStep1 s sol with
    | emit t0 s0 =>
      simp only [lexLoop, hstep, Option.some.injEq, Prod.mk.injEq] at h
      obtain ⟨h1, h2⟩ := h
      subst h1; subst h2
      have hf := lexStep1_emit_facts hstep
      exact ⟨hf.1, hf.2.1, hf.2.2.1, hf.2.2.2.1, hf.2.2.2.2.1, hf.2.2.2.2.2.1,
        hf.2.2.2.2.2.2.1, hf.2.2.2.2.2.2.2.1⟩
    | again s0 sol0 =>
      simp only [lexLoop, hstep] at h
      have hr := ih s0 sol0 t s2 h
      have ha := lexStep1_again_facts hstep
      obtain ⟨hri, hrc, hrloc, hrle, hrbound, hreq, hrne, hreof⟩ := hr
      obtain ⟨hi0, hc0, hlt0, hlen0, hbound0, heq0, -⟩ := ha
      rw [hi0] at hri hrbound hreof
      rw [hc0] at hrc
      refine ⟨hri, hrc, by omega, hrle, ?_, by omega, hrne, ?_⟩
      · intro hp
        exact hrbound (hbound0 hp)
      · intro hk
        obtain ⟨hl0, hlen, hploc⟩ := hreof hk
        exact ⟨hl0, hlen, hploc⟩
    | stuck => exact absurd hstep (lexStep1_not_stuck s sol)

theorem lexLoop_sol :
    ∀ (fuel : Nat) (s : LexState) (sol : Bool) (t : Tok) (s2 : LexState),
    lexLoop fuel s sol = some (t, s2) → (sol || s.atStartOfLine) = true →
    t.startOfLine = true := by
  intro fuel
  induction fuel with
  | zero => intro s sol t s2 h; simp [lexLoop] at h
  | succ f ih =>
    intro s sol t s2 h hsol
    cases hstep : lexStep1 s sol with
    | emit t0 s0 =>
      simp only [lexLoop, hstep, Option.some.injEq, Prod.mk.injEq] at h
      obtain ⟨h1, h2⟩ := h
      subst h1; subst h2
      have hf := (lexStep1_emit_facts hstep).2.2.2.2.2.2.2.2
      rw [hf, hsol]
    | again s0 sol0 =>
      simp only [lexLoop, hstep] at h
      have hs0 := (lexStep1_again_facts hstep).2.2.2.2.2.2
      apply ih s0 sol0 t s2 h
      rw [hs0, hsol]
      simp
    | stuck => exact absurd hstep (lexStep1_not_stuck s sol)

theorem lexLoop_loc_ge {fuel : Nat} {s : LexState} {sol : Bool} {t : Tok} {s2 : LexState}
    (h : lexLoop fuel s sol = some (t, s2)) : (afterStrip s).pos ≤ t.loc := by
  cases fuel with
  | zero => simp [lexLoop] at h
  | succ f =>
    cases hstep : lexStep1 s sol with
    | emit t0 s0 =>
      simp only [lexLoop, hstep, Option.some.injEq, Prod.mk.injEq] at h
      obtain ⟨h1, h2⟩ := h
      have hd := dispatch_emit_spec
        (show dispatch (afterStrip s) (sol || s.atStartOfLine) = .emit t0 s0 from hstep)
      unfold EmitFacts at hd
      subst h1
      omega
    | again s0 sol0 =>
      simp only [lexLoop, hstep] at h
      have hd := dispatch_again_spec (show dispatch (afterStrip s)
        (sol || s.atStartOfLine) = .again s0 sol0 from hstep)
      unfold AgainFacts at hd
      have hr := (lexLoop_facts f s0 sol0 t s2 h).2.2.1
      omega
    | stuck => exact absurd hstep (lexStep1_not_stuck s sol)

theorem lexLoop_progress :
    ∀ (fuel : Nat) (s : LexState) (sol : Bool),
    s.input.length + 1 - s.pos < fuel → (lexLoop fuel s sol).isSome := by
  intro fuel
  induction fuel with
  | zero => intro s sol h; omega
  | succ f ih =>
    intro s sol h
    cases hstep : lexStep1 s sol with
    | emit t0 s0 => simp [lexLoop, hstep]
    | again s0 sol0 =>
      simp only [lexLoop, hstep]
      apply ih
      obtain ⟨hi0, -, hlt0, hlen0, hbound0, -, -⟩ := lexStep1_again_facts hstep
      rw [hi0]
      have := hbound0 (by omega)
      omega
    | stuck => exact absurd hstep (lexStep1_not_stuck s sol)

theorem lex_eq (s : LexState) :
    lexLoop (s.input.length + 2) s false = some (lex s) := by
  have hp := lexLoop_progress (s.input.length + 2) s false (by omega)
  cases hx : lexLoop (s.input.length + 2) s false with
  | none => rw [hx] at hp; simp at hp
  | some r => simp [lex, hx]

theorem lex_facts (s : LexState) :
    (lex s).2.input = s.input ∧ (lex s).2.cat = s.cat ∧
    s.pos ≤ (lex s).1.loc ∧ (lex s).1.loc + (lex s).1.len ≤ (lex s).2.pos ∧
    (s.pos ≤ s.input.length → (lex s).2.pos ≤ s.input.length) ∧
    (lex s).2.pos + sumCounters s = s.pos + (lex s).1.len + sumCounters (lex s).2 ∧
    ((lex s).1.kind ≠ TokKind.eof → 1 ≤ (lex s).1.len) ∧
    ((lex s).1.kind = TokKind.eof →
      (lex s).1.len = 0 ∧ s.input.length ≤ (lex s).2.pos ∧ (lex s).1.loc = (lex s).2.pos) :=
  lexLoop_facts (s.input.length + 2) s false (lex s).1 (lex s).2 (lex_eq s)

/-- The chain predicate for token streams: starting from a cursor position,
every token starts at or after the position, and each token's end is at or
before the next token's start (strict increase and non-overlap follow since
non-Eof tokens have positive length). -/
def chainFrom : Nat → List Tok → Prop
  | _, [] => True
  | p, t :: ts => p ≤ t.loc ∧ chainFrom (t.loc + t.len) ts

theorem chainFrom_mono {a b : Nat} {ts : List Tok} (hab : a ≤ b)
    (h : chainFrom b ts) : chainFrom a ts := by
  cases ts with
  | nil => trivial
  | cons t rest => exact ⟨le_trans hab h.1, h.2⟩

theorem sumLen_cons (t : Tok) (ts : List Tok) : sumLen (t :: ts) = t.len + sumLen ts := by
  simp [sumLen]

theorem lexAll_facts :
    ∀ (fuel : Nat) (s : LexState),
    s.pos ≤ s.input.length → s.input.length - s.pos < fuel →
    (∃ ts0 t0, (lexAll fuel s).1 = ts0 ++ [t0] ∧ t0.kind = TokKind.eof ∧
      t0.len = 0 ∧ t0.loc = s.input.length ∧ (∀ t ∈ ts0, t.kind ≠ TokKind.eof)) ∧
    (lexAll fuel s).2.input = s.input ∧
    (lexAll fuel s).2.pos = s.input.length ∧
    s.input.length + sumCounters s = s.pos + sumLen (lexAll fuel s).1 +
      sumCounters (lexAll fuel s).2 ∧
    chainFrom s.pos (lexAll fuel s).1 ∧
    (∀ t ∈ (lexAll fuel s).1, t.kind ≠ TokKind.eof → 1 ≤ t.len) := by
  intro fuel
  induction fuel with
  | zero => intro s hpos h; omega
  | succ f ih =>
    intro s hpos h
    have hf := lex_facts s
    obtain ⟨hfi, hfc, hfloc, hfle, hfbound, hfeq, hfne, hfeof⟩ := hf
    by_cases hk : (lex s).1.kind = TokKind.eof
    · have heof := hfeof hk
      have hpos2 : (lex s).2.pos = s.input.length := by
        have := hfbound hpos
        omega
      simp only [lexAll, if_pos hk]
      refine ⟨⟨[], (lex s).1, by simp, hk, heof.1, by omega, by simp⟩, hfi, hpos2, ?_, ?_, ?_⟩
      · rw [sumLen_cons]
        simp [sumLen]
        omega
      · exact ⟨hfloc, trivial⟩
      · intro t ht hne
        simp at ht
        rw [ht] at hne
        exact absurd hk hne
    · have hlen1 : 1 ≤ (lex s).1.len := hfne hk
      have hbound2 : (lex s).2.pos ≤ s.input.length := hfbound hpos
      have hih := ih (lex s).2 (by rw [hfi]; exact hbound2) (by rw [hfi]; omega)
      obtain ⟨⟨ts0, t0, hts, ht0k, ht0l, ht0loc, hts0ne⟩, hii, hipos, hieq, hichain, hine⟩ := hih
      rw [hfi] at hii hipos ht0loc
      simp only [lexAll, if_neg hk]
      refine ⟨⟨(lex s).1 :: ts0, t0, by simp [hts], ht0k, ht0l, ht0loc, ?_⟩,
        hii, hipos, ?_, ?_, ?_⟩
      · intro t ht
        simp at ht
        cases ht with
        | inl h1 => rw [h1]; exact hk
        | inr h2 => exact hts0ne t h2
      · rw [sumLen_cons]
        rw [hfi] at hieq
        omega
      · refine ⟨hfloc, ?_⟩
        exact chainFrom_mono hfle hichain
      · intro t ht hne
        simp at ht
        cases ht with
        | inl h1 => rw [h1]; exact hlen1
        | inr h2 => exact hine t h2 hne

theorem skipSpaceIgnoredAux_noop_end {input : List Nat} {cat : Nat → CatCode} {fuel pos : Nat}
    (hn : getCharAndSize input pos = none) :
    skipSpaceIgnoredAux input cat (fuel + 1) pos = (pos, 0, 0) := by
  simp [skipSpaceIgnoredAux, hn]

theorem skipIgnoredAux_noop_end {input : List Nat} {cat : Nat → CatCode} {fuel pos : Nat}
    (hn : getCharAndSize input pos = none) :
    skipIgnoredAux input cat (fuel + 1) pos = (pos, 0) := by
  simp [skipIgnoredAux, hn]

/-- With skip_spaces clear and a non-Ignored character at the cursor, the
stripping steps only clear the two flags. -/
theorem afterStrip_noop {s : LexState} {ch sz : Nat} {tr : Bool}
    (hskip : s.skipSpaces = false)
    (hg : getCharAndSize s.input s.pos = some (ch, sz, tr))
    (hig : s.cat ch ≠ CatCode.ignored) :
    afterStrip s = { s with atStartOfLine := false, skipSpaces := false } := by
  simp only [afterStrip, hskip, Bool.false_eq_true, if_false]
  rw [skipIgnoredAux_noop hg hig]
  rfl

/-- At or beyond the end of input the stripping steps only clear the two
flags. -/
theorem afterStrip_atEnd {s : LexState} (hend : s.input.length ≤ s.pos) :
    afterStrip s = { s with atStartOfLine := false, skipSpaces := false } := by
  have hn : getCharAndSize s.input s.pos = none := getCharAndSize_none.mpr hend
  cases hss : s.skipSpaces with
  | true =>
    simp only [afterStrip, hss, eq_self_iff_true, if_true]
    rw [skipSpaceIgnoredAux_noop_end hn]
    rw [skipIgnoredAux_noop_end hn]
    rfl
  | false =>
    simp only [afterStrip, hss, Bool.false_eq_true, if_false]
    rw [skipIgnoredAux_noop_end hn]
    rfl

theorem dispatch_at_end {s1 : LexState} {sol1 : Bool} (hend : s1.input.length ≤ s1.pos) :
    dispatch s1 sol1 =
      .emit (mkTok .eof sol1 s1.pos 0 (sliceB s1.input s1.pos s1.pos) none) s1 := by
  have hn : getCharAndSize s1.input s1.pos = none := getCharAndSize_none.mpr hend
  simp [dispatch, hn]

theorem dispatch_space_emit {s1 : LexState} {sol1 : Bool} {ch sz : Nat} {tr : Bool}
    (hg : getCharAndSize s1.input s1.pos = some (ch, sz, tr))
    (hcat : s1.cat ch = CatCode.space)
    (hflag : spaceEmitFlag s1.input s1.cat
      (spaceRunAux s1.input s1.cat (s1.input.length + 1) (s1.pos + sz)) = true) :
    dispatch s1 sol1 = .emit (mkTok .space sol1 s1.pos sz [ch] none)
      { s1 with pos := spaceRunAux s1.input s1.cat (s1.input.length + 1) (s1.pos + sz),
                dSpace := s1.dSpace +
                  (spaceRunAux s1.input s1.cat (s1.input.length + 1) (s1.pos + sz) -
                    (s1.pos + sz)) } := by
  simp [dispatch, hg, hcat, hflag]

theorem dispatch_space_discard {s1 : LexState} {sol1 : Bool} {ch sz : Nat} {tr : Bool}
    (hg : getCharAndSize s1.input s1.pos = some (ch, sz, tr))
    (hcat : s1.cat ch = CatCode.space)
    (hflag : spaceEmitFlag s1.input s1.cat
      (spaceRunAux s1.input s1.cat (s1.input.length + 1) (s1.pos + sz)) = false) :
    dispatch s1 sol1 = .again
      { s1 with pos := spaceRunAux s1.input s1.cat (s1.input.length + 1) (s1.pos + sz),
                dSpace := s1.dSpace +
                  (spaceRunAux s1.input s1.cat (s1.input.length + 1) (s1.pos + sz) -
                    s1.pos) } sol1 := by
  simp [dispatch, hg, hcat, hflag]

theorem dispatch_eol_exists {s1 : LexState} {sol1 : Bool} {c2 sz2 : Nat} {tr2 : Bool}
    (hg : getCharAndSize s1.input s1.pos = some (c2, sz2, tr2))
    (hcat : s1.cat c2 = CatCode.endOfLine) :
    ∃ t s2, dispatch s1 sol1 = .emit t s2 ∧ t.loc = s1.pos ∧
      (t.kind = TokKind.paragraph ∨ t.kind = TokKind.space) := by
  by_cases hcr : c2 = 13 ∨ c2 = 10
  · refine ⟨mkTok (if sol1 then TokKind.paragraph else TokKind.space) sol1 s1.pos sz2 [c2] none,
      { s1 with pos := s1.pos + sz2, atStartOfLine := true, skipSpaces := true }, ?_, rfl, ?_⟩
    · simp [dispatch, hg, hcat, hcr]
    · by_cases hsol : sol1 = true <;> simp [mkTok, hsol]
  · refine ⟨mkTok (if sol1 then TokKind.paragraph else TokKind.space) sol1 s1.pos sz2 [c2] none,
      { s1 with
          pos := finishLineAux s1.input (s1.input.length + 1) (s1.pos + sz2),
          dEol := s1.dEol +
            (finishLineAux s1.input (s1.input.length + 1) (s1.pos + sz2) - (s1.pos + sz2)),
          atStartOfLine :=
            decide (finishLineAux s1.input (s1.input.length + 1) (s1.pos + sz2) < s1.input.length),
          skipSpaces :=
            decide (finishLineAux s1.input (s1.input.length + 1) (s1.pos + sz2) < s1.input.length) },
      ?_, rfl, ?_⟩
    · simp [dispatch, hg, hcat, hcr]
    · by_cases hsol : sol1 = true <;> simp [mkTok, hsol]

theorem lexLoop_of_emit {fuel : Nat} {s1 : LexState} {sol1 : Bool} {t : Tok} {s2 : LexState}
    (hstep : lexStep1 s1 sol1 = .emit t s2) :
    lexLoop (fuel + 1) s1 sol1 = some (t, s2) := by
  simp only [lexLoop, hstep]

theorem lexLoop_of_again {fuel : Nat} {s1 : LexState} {sol1 : Bool} {s2 : LexState} {sol2 : Bool}
    (hstep : lexStep1 s1 sol1 = .again s2 sol2) :
    lexLoop (fuel + 1) s1 sol1 = lexLoop fuel s2 sol2 := by
  simp only [lexLoop, hstep]

/-- A lexer whose cursor is at or past the end of input returns the Eof
token at the cursor. -/
theorem lexLoop_end_eof {fuel : Nat} {s1 : LexState} {sol1 : Bool} {t : Tok} {s2 : LexState}
    (h : lexLoop (fuel + 1) s1 sol1 = some (t, s2))
    (hend : s1.input.length ≤ s1.pos) :
    t.kind = TokKind.eof ∧ t.loc = s1.pos := by
  have hstep : lexStep1 s1 sol1 =
      .emit (mkTok .eof (sol1 || s1.atStartOfLine) s1.pos 0 (sliceB s1.input s1.pos s1.pos) none)
        { s1 with atStartOfLine := false, skipSpaces := false } := by
    unfold lexStep1
    rw [afterStrip_atEnd hend]
    exact dispatch_at_end hend
  rw [lexLoop_of_emit hstep] at h
  simp only [Option.some.injEq, Prod.mk.injEq] at h
  rw [← h.1]
  exact ⟨rfl, rfl⟩

/-- A lexer with skip_spaces clear whose cursor sits on an EndOfLine-category
character returns the Paragraph or Space token of that character, located at
the cursor. -/
theorem lexLoop_eol_next {fuel : Nat} {s1 : LexState} {sol1 : Bool} {t : Tok} {s2 : LexState}
    {c2 sz2 : Nat} {tr2 : Bool}
    (h : lexLoop (fuel + 1) s1 sol1 = some (t, s2))
    (hsk : s1.skipSpaces = false)
    (hg : getCharAndSize s1.input s1.pos = some (c2, sz2, tr2))
    (hcat : s1.cat c2 = CatCode.endOfLine) :
    t.loc = s1.pos ∧ (t.kind = TokKind.paragraph ∨ t.kind = TokKind.space) := by
  have hig : s1.cat c2 ≠ CatCode.ignored := by rw [hcat]; simp
  obtain ⟨t2, s22, hde, hdloc, hdkind⟩ := @dispatch_eol_exists
    { s1 with atStartOfLine := false, skipSpaces := false }
    (sol1 || s1.atStartOfLine) c2 sz2 tr2 hg hcat
  have hstep : lexStep1 s1 sol1 = .emit t2 s22 := by
    unfold lexStep1
    rw [afterStrip_noop hsk hg hig]
    exact hde
  rw [lexLoop_of_emit hstep] at h
  simp only [Option.some.injEq, Prod.mk.injEq] at h
  rw [← h.1]
  exact ⟨hdloc, hdkind⟩

/-- C10: a lexer fresh from Lexer::from_bytes starts at start of line and in
the skipping-blanks state, so the first lex call consumes the maximal
leading run of Space and Ignored characters without emitting a token for
it, and the first token (possibly Eof) carries the START_OF_LINE flag: its
location, and the cursor afterwards, are at or beyond the end of the
leading run. -/
theorem lex_initial_skip_spec (input : List Nat) :
    (lex (initLexer input)).1.startOfLine = true ∧
    (skipSpaceIgnoredAux input defaultCategory (input.length + 1) 0).1 ≤
      (lex (initLexer input)).1.loc ∧
    (skipSpaceIgnoredAux input defaultCategory (input.length + 1) 0).1 ≤
      (lex (initLexer input)).2.pos := by
  have hsol : (lex (initLexer input)).1.startOfLine = true := by
    apply lexLoop_sol ((initLexer input).input.length + 2) (initLexer input) false
      (lex (initLexer input)).1 (lex (initLexer input)).2 (lex_eq (initLexer input))
    rfl
  have hloc : (afterStrip (initLexer input)).pos ≤ (lex (initLexer input)).1.loc :=
    lexLoop_loc_ge (lex_eq (initLexer input))
  have hpos : (afterStrip (initLexer input)).pos =
      (skipIgnoredAux input defaultCategory (input.length + 1)
        (skipSpaceIgnoredAux input defaultCategory (input.length + 1) 0).1).1 := by
    simp [afterStrip, initLexer, mkLexer]
  have hski := skipIgnoredAux_spec input defaultCategory (input.length + 1)
      (skipSpaceIgnoredAux input defaultCategory (input.length + 1) 0).1
  have hle := (lex_facts (initLexer input)).2.2.2.1
  refine ⟨hsol, by omega, by omega⟩

/-- C1 amended: for every input and category table, the token stream of a
fresh lexer ends in a single Eof token located at the end of input; the
non-Eof tokens' (location, length) ranges are strictly increasing and never
overlap (each token starts at or after the previous token's end and has
positive length); and the sum of the token lengths plus the bytes the lexer
discarded without a token, namely Ignored characters, skipped spaces
(skipping-blanks state, the tail of a space run, and runs discarded before
end-of-line or end of input), comment bytes, and bytes discarded by
finish_line after a remapped end-of-line character, equals the input
length.  Invalid characters produce InvalidChar tokens, not gaps. -/
theorem lex_stream_cover (input : List Nat) (cat : Nat → CatCode) :
    (∃ ts0 t0, (tokenStreamWith input cat).1 = ts0 ++ [t0] ∧ t0.kind = TokKind.eof ∧
      t0.len = 0 ∧ t0.loc = input.length ∧ ∀ t ∈ ts0, t.kind ≠ TokKind.eof) ∧
    sumLen (tokenStreamWith input cat).1 +
      ((tokenStreamWith input cat).2.dIgnored + (tokenStreamWith input cat).2.dSpace +
        (tokenStreamWith input cat).2.dComment + (tokenStreamWith input cat).2.dEol) =
      input.length ∧
    chainFrom 0 (tokenStreamWith input cat).1 ∧
    (∀ t ∈ (tokenStreamWith input cat).1, t.kind ≠ TokKind.eof → 1 ≤ t.len) := by
  have h := lexAll_facts (input.length + 2) (mkLexer input cat)
      (Nat.zero_le _) (show input.length - 0 < input.length + 2 by omega)
  obtain ⟨hex, hi, hpos, heq, hchain, hne⟩ := h
  unfold sumCounters at heq
  refine ⟨hex, ?_, hchain, hne⟩
  show sumLen (tokenStreamWith input cat).1 +
    ((tokenStreamWith input cat).2.dIgnored + (tokenStreamWith input cat).2.dSpace +
      (tokenStreamWith input cat).2.dComment + (tokenStreamWith input cat).2.dEol) =
    input.length
  have heq2 : input.length + (0 + 0 + 0 + 0) =
      0 + sumLen (tokenStreamWith input cat).1 +
        ((tokenStreamWith input cat).2.dIgnored + (tokenStreamWith input cat).2.dSpace +
          (tokenStreamWith input cat).2.dComment + (tokenStreamWith input cat).2.dEol) := heq
  omega

/-- C4: when skip_spaces is clear and the character at the cursor has
category Space, the lexer consumes the whole run of consecutive Space
characters; if the character after the run exists and is not of category
EndOfLine (the emit flag), exactly one Space token is emitted whose
location is the first space and whose length is the first space's byte
size, with the cursor ending after all consumed spaces; otherwise no Space
token is emitted for the run and lexing restarts at the end of the run: at
end of input the returned token is the Eof token located there, and on an
EndOfLine character the returned token is the Paragraph or Space token of
that character, located at the end of the run. -/
theorem lex_space_run_spec (s : LexState) (ch sz : Nat) (tr : Bool)
    (hskip : s.skipSpaces = false)
    (hget : getCharAndSize s.input s.pos = some (ch, sz, tr))
    (hcat : s.cat ch = CatCode.space) :
    (spaceEmitFlag s.input s.cat
        (spaceRunAux s.input s.cat (s.input.length + 1) (s.pos + sz)) = true →
      (lex s).1.kind = TokKind.space ∧ (lex s).1.loc = s.pos ∧ (lex s).1.len = sz ∧
      (lex s).2.pos = spaceRunAux s.input s.cat (s.input.length + 1) (s.pos + sz)) ∧
    (spaceEmitFlag s.input s.cat
        (spaceRunAux s.input s.cat (s.input.length + 1) (s.pos + sz)) = false →
      spaceRunAux s.input s.cat (s.input.length + 1) (s.pos + sz) ≤ (lex s).1.loc ∧
      spaceRunAux s.input s.cat (s.input.length + 1) (s.pos + sz) ≤ (lex s).2.pos) ∧
    (getCharAndSize s.input
        (spaceRunAux s.input s.cat (s.input.length + 1) (s.pos + sz)) = none →
      (lex s).1.kind = TokKind.eof ∧
      (lex s).1.loc = spaceRunAux s.input s.cat (s.input.length + 1) (s.pos + sz)) ∧
    (∀ c2 sz2 tr2, getCharAndSize s.input
        (spaceRunAux s.input s.cat (s.input.length + 1) (s.pos + sz)) = some (c2, sz2, tr2) →
      s.cat c2 = CatCode.endOfLine →
      (lex s).1.loc = spaceRunAux s.input s.cat (s.input.length + 1) (s.pos + sz) ∧
      ((lex s).1.kind = TokKind.paragraph ∨ (lex s).1.kind = TokKind.space)) := by
  have hig : s.cat ch ≠ CatCode.ignored := by rw [hcat]; simp
  have hA := afterStrip_noop hskip hget hig
  by_cases hflag : spaceEmitFlag s.input s.cat
      (spaceRunAux s.input s.cat (s.input.length + 1) (s.pos + sz)) = true
  · have hstep : lexStep1 s false =
        .emit (mkTok .space (false || s.atStartOfLine) s.pos sz [ch] none)
          { s with atStartOfLine := false,
                   skipSpaces := false,
                   pos := spaceRunAux s.input s.cat (s.input.length + 1) (s.pos + sz),
                   dSpace := s.dSpace +
                     (spaceRunAux s.input s.cat (s.input.length + 1) (s.pos + sz) -
                       (s.pos + sz)) } := by
      unfold lexStep1
      rw [hA]
      exact dispatch_space_emit hget hcat hflag
    have hL : lexLoop (s.input.length + 1 + 1) s false = some ((lex s).1, (lex s).2) :=
      lex_eq s
    rw [lexLoop_of_emit hstep] at hL
    simp only [Option.some.injEq, Prod.mk.injEq] at hL
    refine ⟨fun _ => ?_, fun hc => absurd hflag (by rw [hc]; simp), fun hn => ?_, ?_⟩
    · rw [← hL.1, ← hL.2]
      exact ⟨rfl, rfl, rfl, rfl⟩
    · exact absurd hflag (by rw [spaceEmitFlag_none hn]; simp)
    · intro c2 sz2 tr2 hsome hceol
      exfalso
      rw [spaceEmitFlag_some hsome] at hflag
      simp [hceol] at hflag
  · have hflag2 : spaceEmitFlag s.input s.cat
        (spaceRunAux s.input s.cat (s.input.length + 1) (s.pos + sz)) = false := by
      cases hx : spaceEmitFlag s.input s.cat
          (spaceRunAux s.input s.cat (s.input.length + 1) (s.pos + sz))
      · rfl
      · exact absurd hx hflag
    have hstep : lexStep1 s false = .again
        { s with atStartOfLine := false,
                 skipSpaces := false,
                 pos := spaceRunAux s.input s.cat (s.input.length + 1) (s.pos + sz),
                 dSpace := s.dSpace +
                   (spaceRunAux s.input s.cat (s.input.length + 1) (s.pos + sz) - s.pos) }
        (false || s.atStartOfLine) := by
      unfold lexStep1
      rw [hA]
      exact dispatch_space_discard hget hcat hflag2
    have hL : lexLoop (s.input.length + 1 + 1) s false = some ((lex s).1, (lex s).2) :=
      lex_eq s
    rw [lexLoop_of_again hstep] at hL
    refine ⟨fun hc => absurd hc hflag, fun _ => ?_, fun hn => ?_, ?_⟩
    · have hfacts := lexLoop_facts (s.input.length + 1) _ _ (lex s).1 (lex s).2 hL
      have h1 : spaceRunAux s.input s.cat (s.input.length + 1) (s.pos + sz) ≤
          (lex s).1.loc := hfacts.2.2.1
      have h2 : (lex s).1.loc + (lex s).1.len ≤ (lex s).2.pos := hfacts.2.2.2.1
      exact ⟨h1, by omega⟩
    · exact lexLoop_end_eof hL (getCharAndSize_none.mp hn)
    · intro c2 sz2 tr2 hsome hceol
      exact lexLoop_eol_next hL rfl hsome hceol

/-- Witness for C4: on the two-byte input of one space then one letter,
starting mid-line with skip_spaces clear, the hypotheses hold concretely
and a Space token of length 1 at location 0 is emitted with the cursor at
the end of the run. -/
theorem lex_space_run_spec_witness :
    (lex ⟨[32, 97], defaultCategory, 0, false, false, [], 0, 0, 0, 0⟩).1.kind =
      TokKind.space ∧
    (lex ⟨[32, 97], defaultCategory, 0, false, false, [], 0, 0, 0, 0⟩).1.loc = 0 ∧
    (lex ⟨[32, 97], defaultCategory, 0, false, false, [], 0, 0, 0, 0⟩).2.pos = 1 := by
  have h := (lex_space_run_spec ⟨[32, 97], defaultCategory, 0, false, false, [], 0, 0, 0, 0⟩
      32 1 false rfl (by decide) (by decide)).1 (by decide)
  refine ⟨h.1, h.2.1, ?_⟩
  rw [h.2.2.2]
  decide

/-! Preprocessor shell, from preprocessor.rs.  The include stack holds the
active lexers, top of stack last (Vec push order); Preprocessor::lex
delegates to the top-of-stack lexer when one exists and reports false
otherwise.  The Rust code contains no popping logic. -/

structure PpState where
  stack : List LexState

/-- Mirrors Preprocessor::lex: take the current lexer (top of the include
stack), run its lex and return its token (the some case models returning
true with the out-parameter token); with no active lexer return none
(models returning false). -/
def ppLex (pp : PpState) : Option (Tok × PpState) :=
  match pp.stack.getLast? with
  | some lx =>
    let r := lex lx
    some (r.1, ⟨pp.stack.dropLast ++ [r.2]⟩)
  | none => none

/-- C8 counterexample: an include stack holding two lexers whose top lexer
has empty (exhausted) input while the bottom lexer still has unread input.
Preprocessor::lex surfaces the Eof token of the top lexer directly to the
caller and leaves both lexers on the stack: Eof is not surfaced only when
the bottom lexer's input is exhausted, and no popping happens. -/
theorem ppLex_no_pop_cex :
    ((ppLex ⟨[mkLexer [97] defaultCategory, mkLexer [] defaultCategory]⟩).map
        (fun r => (r.1.kind, r.2.stack.length))) = some (TokKind.eof, 2) ∧
    (mkLexer [97] defaultCategory).pos = 0 ∧
    ((mkLexer [97] defaultCategory).input.length = 1) := by
  refine ⟨?_, rfl, rfl⟩
  rfl

/-- C8 amended: Preprocessor::lex returns false iff no lexer is active (the
include stack is empty); otherwise it delegates to the top-of-stack lexer
and returns true with that lexer's token, leaving the stack depth
unchanged: it never pops on Eof, so an Eof token from the top lexer is
surfaced to the caller even when the stack holds more than one lexer. -/
theorem ppLex_delegation_spec (pp : PpState) :
    (ppLex pp = none ↔ pp.stack = []) ∧
    (∀ tok pp2, ppLex pp = some (tok, pp2) →
      pp2.stack.length = pp.stack.length ∧
      ∃ lx, pp.stack.getLast? = some lx ∧ tok = (lex lx).1) := by
  constructor
  · cases hl : pp.stack.getLast? with
    | none =>
      simp only [ppLex, hl]
      constructor
      · intro _
        cases hstk : pp.stack with
        | nil => rfl
        | cons a l =>
          rw [hstk] at hl
          simp [List.getLast?_eq_getLast] at hl
      · intro _
        trivial
    | some lx =>
      simp only [ppLex, hl]
      constructor
      · intro h; exact absurd h (by simp)
      · intro h
        rw [h] at hl
        simp at hl
  · intro tok pp2 h
    cases hl : pp.stack.getLast? with
    | none => simp [ppLex, hl] at h
    | some lx =>
      have hne : pp.stack ≠ [] := by
        intro hc
        rw [hc] at hl
        simp at hl
      simp only [ppLex, hl, Option.some.injEq, Prod.mk.injEq] at h
      obtain ⟨h1, h2⟩ := h
      refine ⟨?_, lx, rfl, h1.symm⟩
      rw [← h2]
      simp only [List.length_append, List.length_dropLast, List.length_singleton]
      have : 0 < pp.stack.length := List.length_pos.mpr hne
      omega

/-- Witness for C8 amended: a one-lexer stack over empty input; the
delegation implication is discharged at the concrete stack, giving the
preserved stack depth. -/
theorem ppLex_delegation_spec_witness :
    (ppLex ⟨[mkLexer [] defaultCategory]⟩).map (fun r => r.2.stack.length) = some 1 := by
  cases hx : ppLex ⟨[mkLexer [] defaultCategory]⟩ with
  | none =>
    have h := (ppLex_delegation_spec ⟨[mkLexer [] defaultCategory]⟩).1.mp hx
    simp at h
  | some r =>
    have h := (ppLex_delegation_spec ⟨[mkLexer [] defaultCategory]⟩).2 r.1 r.2 (by rw [hx])
    simpa using h.1

/-! Source manager, from source_manager.rs.  FileId and offsets are u32 in
the Rust code; u32 arithmetic is modelled on Nat with explicit reduction
modulo 2^32 wherever the Rust code adds or casts. -/

def two32 : Nat := 4294967296

structure SmEntry where
  start : Nat
  size : Nat
deriving DecidableEq

structure Sm where
  files : List (Nat × SmEntry)
  nextFileId : Nat
  nextOffset : Nat
deriving DecidableEq

def smNew : Sm := ⟨[], 0, 0⟩

/-- Mirrors SourceManager::add_buffer: assign the next file id, register the
entry at the current watermark (FileEntry::new stores size as
buffer.size() as u32), advance the watermark to the entry's end_offset
(start + size on u32) and bump the id counter. -/
def addBuffer (sm : Sm) (bufSize : Nat) : Nat × Sm :=
  let fid := sm.nextFileId
  let size := bufSize % two32
  let entry : SmEntry := ⟨sm.nextOffset, size⟩
  (fid, ⟨sm.files ++ [(fid, entry)], (fid + 1) % two32, (entry.start + size) % two32⟩)

/-- A sequence of add_buffer calls on a manager state. -/
def addAllFrom : Sm → List Nat → Sm
  | sm, [] => sm
  | sm, sz :: rest => addAllFrom (addBuffer sm sz).2 rest

/-- A sequence of add_buffer calls on a fresh SourceManager::new. -/
def addAll (sizes : List Nat) : Sm := addAllFrom smNew sizes

/-- Specification-side explicit layout: file i gets id fid+i and the span
starting at off plus the sizes before it. -/
def buildFiles : Nat → Nat → List Nat → List (Nat × SmEntry)
  | _, _, [] => []
  | fid, off, sz :: rest => (fid, ⟨off, sz⟩) :: buildFiles (fid + 1) (off + sz) rest

theorem addAllFrom_files (sizes : List Nat) :
    ∀ (fs : List (Nat × SmEntry)) (fid off : Nat),
    fid + sizes.length < two32 → off + sizes.sum < two32 →
    (addAllFrom ⟨fs, fid, off⟩ sizes).files = fs ++ buildFiles fid off sizes := by
  induction sizes with
  | nil => intro fs fid off _ _; simp [addAllFrom, buildFiles]
  | cons sz rest ih =>
    intro fs fid off hn hs
    have hsz : sz % two32 = sz := Nat.mod_eq_of_lt (by simp [List.sum_cons] at hs; omega)
    have hoff : (off + sz) % two32 = off + sz := by
      apply Nat.mod_eq_of_lt
      simp [List.sum_cons] at hs
      omega
    have hfid : (fid + 1) % two32 = fid + 1 := by
      apply Nat.mod_eq_of_lt
      simp at hn
      omega
    show (addAllFrom (addBuffer ⟨fs, fid, off⟩ sz).2 rest).files = _
    simp only [addBuffer, hsz, hoff, hfid]
    have hrec := ih (fs ++ [(fid, (⟨off, sz⟩ : SmEntry))]) (fid + 1) (off + sz)
        (by simp at hn ⊢; omega) (by simp [List.sum_cons] at hs ⊢; omega)
    rw [hrec]
    simp [buildFiles]

theorem buildFiles_length (sizes : List Nat) :
    ∀ fid off, (buildFiles fid off sizes).length = sizes.length := by
  induction sizes with
  | nil => intro fid off; rfl
  | cons sz rest ih => intro fid off; simp [buildFiles, ih]

theorem buildFiles_map_fst (sizes : List Nat) :
    ∀ fid off, (buildFiles fid off sizes).map Prod.fst = List.range' fid sizes.length := by
  induction sizes with
  | nil => intro fid off; rfl
  | cons sz rest ih =>
    intro fid off
    simp [buildFiles, List.range'_succ, ih]

theorem buildFiles_getD (sizes : List Nat) :
    ∀ (fid off i : Nat), i < sizes.length →
    (buildFiles fid off sizes).getD i (0, ⟨0, 0⟩) =
      (fid + i, ⟨off + (sizes.take i).sum, sizes.getD i 0⟩) := by
  induction sizes with
  | nil => intro fid off i h; simp at h
  | cons sz rest ih =>
    intro fid off i h
    cases i with
    | zero => simp [buildFiles]
    | succ j =>
      simp only [buildFiles, List.getD_cons_succ, List.take_succ_cons, List.sum_cons]
      rw [ih (fid + 1) (off + sz) j (by simpa using h)]
      refine congrArg₂ Prod.mk (by omega) ?_
      refine congrArg₂ SmEntry.mk (by omega) rfl

theorem takeSum_succ (l : List Nat) : ∀ i, i < l.length →
    (l.take (i + 1)).sum = (l.take i).sum + l.getD i 0 := by
  induction l with
  | nil => intro i h; simp at h
  | cons x xs ih =>
    intro i h
    cases i with
    | zero => simp
    | succ j =>
      simp only [List.take_succ_cons, List.sum_cons, List.getD_cons_succ]
      rw [ih j (by simpa using h)]
      omega

theorem takeSum_mono (l : List Nat) : ∀ a b, a ≤ b → (l.take a).sum ≤ (l.take b).sum := by
  induction l with
  | nil => intro a b _; simp
  | cons x xs ih =>
    intro a b hab
    cases a with
    | zero => simp
    | succ a2 =>
      cases b with
      | zero => omega
      | succ b2 =>
        simp only [List.take_succ_cons, List.sum_cons]
        have := ih a2 b2 (by omega)
        omega

theorem buildFiles_take (sizes : List Nat) :
    ∀ fid off k, buildFiles fid off (sizes.take k) = (buildFiles fid off sizes).take k := by
  induction sizes with
  | nil => intro fid off k; simp [buildFiles]
  | cons sz rest ih =>
    intro fid off k
    cases k with
    | zero => simp [buildFiles]
    | succ j => simp [buildFiles, ih]

/-- C9: for every sequence of add_buffer calls on a fresh SourceManager
(with the session within the u32 capacity of ids and offsets that the code
uses), the returned FileIds are the fresh, strictly increasing values
0,1,2,...; each buffer is registered at the current watermark, which
advances by the buffer's size, so entry i spans
[sum of sizes before i, sum through i); consecutive entries are adjacent,
all spans are pairwise disjoint, and already registered entries are never
modified by later insertions (the file list of a shorter call sequence is a
prefix of the longer one's). -/
theorem addBuffer_layout_spec (sizes : List Nat)
    (hn : sizes.length < two32) (hs : sizes.sum < two32) :
    ((addAll sizes).files.map Prod.fst = List.range sizes.length) ∧
    (∀ i, i < sizes.length →
      ((addAll sizes).files.getD i (0, ⟨0, 0⟩)).2.start = (sizes.take i).sum ∧
      ((addAll sizes).files.getD i (0, ⟨0, 0⟩)).2.size = sizes.getD i 0) ∧
    (∀ i, i + 1 < sizes.length →
      ((addAll sizes).files.getD (i + 1) (0, ⟨0, 0⟩)).2.start =
        ((addAll sizes).files.getD i (0, ⟨0, 0⟩)).2.start +
          ((addAll sizes).files.getD i (0, ⟨0, 0⟩)).2.size) ∧
    (∀ i j, i < j → j < sizes.length →
      ((addAll sizes).files.getD i (0, ⟨0, 0⟩)).2.start +
          ((addAll sizes).files.getD i (0, ⟨0, 0⟩)).2.size ≤
        ((addAll sizes).files.getD j (0, ⟨0, 0⟩)).2.start) ∧
    (∀ k, (addAll (sizes.take k)).files = (addAll sizes).files.take k) := by
  have hfiles : (addAll sizes).files = buildFiles 0 0 sizes :=
    addAllFrom_files sizes [] 0 0 (by simpa using hn) (by simpa using hs)
  refine ⟨?_, ?_, ?_, ?_, ?_⟩
  · rw [hfiles, buildFiles_map_fst]
    exact (List.range_eq_range' sizes.length).symm
  · intro i hi
    rw [hfiles, buildFiles_getD sizes 0 0 i hi]
    exact ⟨by simp, rfl⟩
  · intro i hi
    rw [hfiles, buildFiles_getD sizes 0 0 (i + 1) hi,
        buildFiles_getD sizes 0 0 i (by omega)]
    simp only
    rw [takeSum_succ sizes i (by omega)]
    omega
  · intro i j hij hj
    rw [hfiles, buildFiles_getD sizes 0 0 i (by omega),
        buildFiles_getD sizes 0 0 j hj]
    simp only [Nat.zero_add]
    rw [← takeSum_succ sizes i (by omega)]
    exact takeSum_mono sizes (i + 1) j (by omega)
  · intro k
    have hlen : (sizes.take k).length ≤ sizes.length := by
      simp [List.length_take]
    have hsum : (sizes.take k).sum ≤ sizes.sum := by
      have hsplit : (sizes.take k).sum + (sizes.drop k).sum = sizes.sum := by
        rw [← List.sum_append, List.take_append_drop]
      omega
    have h1 : (addAll (sizes.take k)).files = buildFiles 0 0 (sizes.take k) := by
      apply addAllFrom_files
      · simp only [Nat.zero_add]
        omega
      · simp only [Nat.zero_add]
        omega
    rw [h1, hfiles, buildFiles_take]

/-- Witness for C9: two buffers of sizes 5 and 6 on a fresh manager; the
bound hypotheses are discharged concretely and the second entry starts at
offset 5 with ids 0 and 1. -/
theorem addBuffer_layout_spec_witness :
    ((addAll [5, 6]).files.map Prod.fst = List.range 2) ∧
    ((addAll [5, 6]).files.getD 1 (0, ⟨0, 0⟩)).2.start = 5 := by
  have h := addBuffer_layout_spec [5, 6] (by decide) (by decide)
  refine ⟨h.1, ?_⟩
  have h2 := (h.2.1 1 (by decide)).1
  simpa using h2

end ReTeX
